import Mathlib

/-!
Verification of the red-black tree implementation in rbtree.c (with the
range utilities of rbtree_utils.c) against its natural-language
specification.

The C code stores opaque values ordered by a caller-supplied total-order
comparison function.  The embedding instantiates the values with `Int`
and the comparison with the integer order (`compare(a,b) < 0` becomes
`a < b`, and so on); this is the canonical valid total order the claims
quantify over.

The C tree is a pointer structure with parent links and a shared
sentinel `tree->nil`.  For a well-formed tree the pointer graph is
exactly an inductive binary tree, and the parent chain of any node is
the list of ancestor frames on the path from the root down to it.  The
embedding therefore represents a node-with-parent-pointer as a subtree
`Tree` together with a zipper context `Path` (innermost frame first);
`plug` rebuilds the whole tree, which is what following parent links to
the root yields in C.  The iterative descents of the C code
(`rb_insert`, `rb_find_node`, `rb_tree_minimum_node`) accumulate that
context; the upward fixup loops consume it.

The sentinel is `Tree.nil`.  Its color is always read as BLACK
(`colorOf .nil = .black`), matching `tree->nil->color = RB_BLACK` which
no operation ever overwrites with a different value.  The C code does
write the sentinel during `rb_delete` (the parent field, in
`rb_transplant` and in the `x->parent = y` line, and the color field -
always with BLACK - in the final `x->color = RB_BLACK` of
`rb_delete_fixup`); those writes are recorded in an explicit write log
`SWrite` so that claims about sentinel mutation can be settled.  A
written parent pointer is represented by the key of the target node
(`some k`), or `none` when the written value is the sentinel itself;
live nodes have pairwise distinct keys, so this representation is
faithful to pointer identity.
-/

namespace RBC

/-- Node colors, from rb_color_t in rbtree.h. -/
inductive Color where
  | red : Color
  | black : Color
deriving DecidableEq

/-- The tree shape: the sentinel (tree->nil) is `nil`; a real node carries
its color, left child, stored value, and right child (rb_node_t). -/
inductive Tree where
  | nil : Tree
  | node (c : Color) (l : Tree) (v : Int) (r : Tree) : Tree
deriving DecidableEq

/-- Result codes, from rb_result_t in rbtree.h. -/
inductive RBResult where
  | OK | ERROR | NOT_FOUND | DUPLICATE | MEMORY_ERROR
deriving DecidableEq

/-- The tree header (rb_tree_t): root pointer and element count.  The
comparison function is fixed to the integer order and the destructor is
tracked separately, so they are not fields here. -/
structure RBTree where
  root : Tree
  size : Nat
deriving DecidableEq

/-- Reading node->color; the sentinel reads as BLACK. -/
def colorOf : Tree → Color
  | .nil => .black
  | .node c _ _ _ => c

/-- Writing node->color = c.  On the sentinel this is a no-op
structurally (the C write sites that can target the sentinel are logged
separately via SWrite). -/
def setColor : Tree → Color → Tree
  | .nil, _ => .nil
  | .node _ l v r, c => .node c l v r

/-- Reading node->left; the sentinel has left = itself. -/
def leftT : Tree → Tree
  | .nil => .nil
  | .node _ l _ _ => l

/-- Reading node->right; the sentinel has right = itself. -/
def rightT : Tree → Tree
  | .nil => .nil
  | .node _ _ _ r => r

/-- The sequence of values visited by rb_inorder_walk_node. -/
def inorder : Tree → List Int
  | .nil => []
  | .node _ l v r => inorder l ++ v :: inorder r

/-- Number of real nodes in a subtree. -/
def numNodes : Tree → Nat
  | .nil => 0
  | .node _ l _ r => numNodes l + numNodes r + 1

/-- rb_height_node: number of nodes on the longest root-to-sentinel
path, 0 for the sentinel. -/
def heightN : Tree → Nat
  | .nil => 0
  | .node _ l _ r => 1 + max (heightN l) (heightN r)

/-- Which child of its parent a node is. -/
inductive Dir where
  | L | R
deriving DecidableEq

/-- One ancestor frame of the zipper: the parent node color and value,
the sibling subtree, and on which side the hole sits (d = L means the
hole is the left child, so other is the right subtree). -/
structure Frame where
  c : Color
  v : Int
  other : Tree
  d : Dir
deriving DecidableEq

/-- Ancestor context, innermost frame first; this is the parent chain of
the C node. -/
abbrev Path := List Frame

/-- Rebuild the full tree from a subtree and its ancestor context. -/
def plug : Tree → Path → Tree
  | t, [] => t
  | t, ⟨c, v, o, .L⟩ :: p => plug (.node c t v o) p
  | t, ⟨c, v, o, .R⟩ :: p => plug (.node c o v t) p

/-- rb_find_node followed by the data extraction of rb_search: descend
comparing, left on less, right on greater, return the stored value on
equality. -/
def findVal : Tree → Int → Option Int
  | .nil, _ => none
  | .node _ l v r, k =>
    if k < v then findVal l k
    else if v < k then findVal r k
    else some v

/-- rb_tree_minimum_node data: follow left links to the last real node.
The nil case is unreachable under the C precondition (called on a real
node) and returns a dummy. -/
def treeMinVal : Tree → Int
  | .nil => 0
  | .node _ .nil v _ => v
  | .node _ (.node lc ll lv lr) _ _ => treeMinVal (.node lc ll lv lr)

/-- rb_tree_maximum_node data: follow right links to the last real node. -/
def treeMaxVal : Tree → Int
  | .nil => 0
  | .node _ _ v .nil => v
  | .node _ _ _ (.node rc rl rv rr) => treeMaxVal (.node rc rl rv rr)

/-- Phase 1 of rb_insert: the descent loop.  Accumulates the ancestor
frames of the insertion point; returns none on an equal comparison
(the RB_DUPLICATE exit, taken before any mutation). -/
def insDescend : Tree → Int → Path → Option Path
  | .nil, _, acc => some acc
  | .node c l v r, k, acc =>
    if k < v then insDescend l k (⟨c, v, r, .L⟩ :: acc)
    else if v < k then insDescend r k (⟨c, v, l, .R⟩ :: acc)
    else none

/-- The final tree->root->color = RB_BLACK of rb_insert_fixup (after
rb_insert the root is never the sentinel, so the nil case is dead). -/
def blackenRoot : Tree → Tree
  | .nil => .nil
  | .node _ l v r => .node .black l v r

/-- rb_insert_fixup.  z is the current (always red, really) node, the
path its parent chain.  The loop runs while z->parent is red; an empty
path means z->parent is the sentinel (black), a black head frame exits
the loop.  A red parent that is the root cannot arise from a valid tree
(the root is black and case 1 never recolors a path frame); for
totality that case exits the loop.  When the parent is red the
grandparent is a real frame; case 1 (red uncle) recolors and continues
two levels up; cases 2/3 (black uncle) do the triangle and/or line
rotations of rb_left_rotate / rb_right_rotate and then the loop exits
because the new parent is black, so they plug and stop.  The z = nil
subcases of the triangle branch are unreachable (z is always a real
node) and just plug back. -/
def insFixup : Tree → Path → Tree
  | z, [] => z
  | z, ⟨.black, pv, po, pd⟩ :: p => plug z (⟨.black, pv, po, pd⟩ :: p)
  | z, [⟨.red, pv, po, pd⟩] => plug z [⟨.red, pv, po, pd⟩]
  | z, ⟨.red, pv, po, pd⟩ :: ⟨gc, gv, go, gd⟩ :: p =>
    if colorOf go = .red then
      insFixup
        (match gd, pd with
          | .L, .L => .node .red (.node .black z pv po) gv (setColor go .black)
          | .L, .R => .node .red (.node .black po pv z) gv (setColor go .black)
          | .R, .L => .node .red (setColor go .black) gv (.node .black z pv po)
          | .R, .R => .node .red (setColor go .black) gv (.node .black po pv z))
        p
    else
      match gd, pd with
      | .L, .L => plug (.node .black z pv (.node .red po gv go)) p
      | .L, .R =>
        match z with
        | .nil => plug .nil (⟨.red, pv, po, .R⟩ :: ⟨gc, gv, go, .L⟩ :: p)
        | .node _ zl zv zr =>
          plug (.node .black (.node .red po pv zl) zv (.node .red zr gv go)) p
      | .R, .R => plug (.node .black (.node .red go gv po) pv z) p
      | .R, .L =>
        match z with
        | .nil => plug .nil (⟨.red, pv, po, .L⟩ :: ⟨gc, gv, go, .R⟩ :: p)
        | .node _ zl zv zr =>
          plug (.node .black (.node .red go gv zl) zv (.node .red zr pv po)) p

/-- rb_insert: descend, reject duplicates without mutation, otherwise
splice a fresh red leaf, fix up, blacken the root, increment size. -/
def rbInsert (t : RBTree) (k : Int) : RBResult × RBTree :=
  match insDescend t.root k [] with
  | none => (.DUPLICATE, t)
  | some p => (.OK, ⟨blackenRoot (insFixup (.node .red .nil k .nil) p), t.size + 1⟩)

/-- The value-destructor calls rb_insert makes on the inserted data:
the source of rb_insert contains no call to tree->free_data on any
path (the duplicate exit frees only the node shell with free(z)), so
the log is empty by construction. -/
def rbInsertFreeDataCalls (_ : RBTree) (_ : Int) : List Int := []

/-- A write the C code performs on the sentinel node: a parent-pointer
assignment (value = key of the target node, none for the sentinel
itself) or a color assignment.  No statement in rb_delete,
rb_transplant, rb_delete_fixup or the rotations can assign the data,
left or right field of the sentinel (each such assignment is to a node
checked or known to be real), so the log has no constructors for them. -/
inductive SWrite where
  | parentW (q : Option Int)
  | colorW (c : Color)
deriving DecidableEq

/-- rb_find_node for rb_delete: descend accumulating the parent chain;
returns the context and the fields of the located node z. -/
def findZ : Tree → Int → Path → Option (Path × Color × Tree × Int × Tree)
  | .nil, _, _ => none
  | .node c l v r, k, acc =>
    if k < v then findZ l k (⟨c, v, r, .L⟩ :: acc)
    else if v < k then findZ r k (⟨c, v, l, .R⟩ :: acc)
    else some (acc, c, l, v, r)

/-- rb_tree_minimum_node as used by rb_delete on z->right: follow left
links, returning the spine frames (innermost first) and the color,
value and right child of the minimum node y (whose left child is the
sentinel).  The nil case is unreachable (z has two children). -/
def minZ : Tree → Path × Color × Int × Tree
  | .nil => ([], .black, 0, .nil)
  | .node c .nil v r => ([], c, v, r)
  | .node c (.node lc ll lv lr) v r =>
    let m := minZ (.node lc ll lv lr)
    (m.1 ++ [⟨c, v, r, .L⟩], m.2)

/-- Key of the head frame of a context: the parent pointer of the node
sitting in the hole, as an Option Int (none = the sentinel, i.e. the
node is the root). -/
def headQ : Path → Option Int
  | [] => none
  | f :: _ => some f.v

/-- Terminal cases 3/4 of rb_delete_fixup for x a LEFT child: sibling w
is black with at least one red child.  pc/pv are the parent color and
value, rest the context above the parent.  Case 3 (w->right black, so
w->left red) recolors and right-rotates w first; case 4 recolors,
left-rotates the parent, sets x = tree->root and the loop exits, after
which x->color = RB_BLACK blackens the root.  The nil subcases are
unreachable given the case conditions. -/
def delCase34L (x : Tree) (pc : Color) (pv : Int) (w : Tree) (rest : Path) : Tree :=
  match w with
  | .node _ wl wv wr =>
    if colorOf wr = .black then
      match wl with
      | .node _ a av b =>
        blackenRoot (plug (.node pc (.node .black x pv a) av (.node .black b wv wr)) rest)
      | .nil => blackenRoot (plug (.node pc x pv w) rest)
    else
      blackenRoot (plug (.node pc (.node .black x pv wl) wv (setColor wr .black)) rest)
  | .nil => blackenRoot (plug (.node pc x pv .nil) rest)

/-- Mirror of delCase34L for x a RIGHT child (sibling w on the left). -/
def delCase34R (x : Tree) (pc : Color) (pv : Int) (w : Tree) (rest : Path) : Tree :=
  match w with
  | .node _ wl wv wr =>
    if colorOf wl = .black then
      match wr with
      | .node _ a av b =>
        blackenRoot (plug (.node pc (.node .black wl wv a) av (.node .black b pv x)) rest)
      | .nil => blackenRoot (plug (.node pc w pv x) rest)
    else
      blackenRoot (plug (.node pc (setColor wl .black) wv (.node .black wr pv x)) rest)
  | .nil => blackenRoot (plug (.node pc .nil pv x) rest)

/-- rb_delete_fixup.  x is the cursor (possibly the sentinel), the path
its parent chain.  The loop runs while x is not the root and x is
black.  Each iteration branches on the side of x and the sibling w.
Sibling red (case 1): recolor and rotate the parent; this deepens the
context by one frame (parent now red under the old sibling, now black)
and falls through to cases 2-4 with the new sibling; after a case-1
rotation case 2 makes the cursor the now-red parent so the loop exits
immediately, and cases 3/4 are terminal, so the fall-through is written
out inline.  Case 2 (both of w's nephews black): recolor w red and move
the cursor to the parent - the only recursive step.  When w is the
sentinel the C code reads its (black) color and children and takes case
2, writing RB_RED into the sentinel color field; the structural write
is a no-op and is recorded in the log (it cannot arise from a valid
tree).  The final x->color = RB_BLACK on loop exit is blackenRoot /
setColor, logged when x is the sentinel (then it writes BLACK, the
value already present). -/
def delFixup : Tree → Path → Tree × List SWrite
  | x, [] => (blackenRoot x, if x = .nil then [.colorW .black] else [])
  | x, ⟨pc, pv, w, .L⟩ :: p =>
    if colorOf x = .red then
      (plug (setColor x .black) (⟨pc, pv, w, .L⟩ :: p), [])
    else
      match w with
      | .node .red wl wv wr =>
        if colorOf (leftT wl) = .black ∧ colorOf (rightT wl) = .black then
          (plug (.node .black x pv (setColor wl .red)) (⟨.black, wv, wr, .L⟩ :: p),
            if wl = .nil then [.colorW .red] else [])
        else
          (delCase34L x .red pv wl (⟨.black, wv, wr, .L⟩ :: p), [])
      | _ =>
        if colorOf (leftT w) = .black ∧ colorOf (rightT w) = .black then
          let res := delFixup (.node pc x pv (setColor w .red)) p
          (res.1, (if w = .nil then [.colorW .red] else []) ++ res.2)
        else
          (delCase34L x pc pv w p, [])
  | x, ⟨pc, pv, w, .R⟩ :: p =>
    if colorOf x = .red then
      (plug (setColor x .black) (⟨pc, pv, w, .R⟩ :: p), [])
    else
      match w with
      | .node .red wl wv wr =>
        if colorOf (leftT wr) = .black ∧ colorOf (rightT wr) = .black then
          (plug (.node .black (setColor wr .red) pv x) (⟨.black, wv, wl, .R⟩ :: p),
            if wr = .nil then [.colorW .red] else [])
        else
          (delCase34R x .red pv wr (⟨.black, wv, wl, .R⟩ :: p), [])
      | _ =>
        if colorOf (leftT w) = .black ∧ colorOf (rightT w) = .black then
          let res := delFixup (.node pc (setColor w .red) pv x) p
          (res.1, (if w = .nil then [.colorW .red] else []) ++ res.2)
        else
          (delCase34R x pc pv w p, [])

/-- rb_delete.  Find z (NOT_FOUND if absent); splice it out exactly as
the C code does: no left child means transplant z->right into its place
(writing the sentinel parent field when z->right is the sentinel); no
right child likewise with z->left (a real node there); two children
means y = minimum of z->right takes the place of z keeping z's color,
with x = y->right reparented (the x->parent = y write when y->parent is
z, or the transplant write, hits the sentinel when x is the sentinel).
Then run rb_delete_fixup when the spliced-out color was black, and
decrement size. -/
def rbDelete (t : RBTree) (k : Int) : RBResult × RBTree × List SWrite :=
  match findZ t.root k [] with
  | none => (.NOT_FOUND, t, [])
  | some (p, zc, zl, _zv, zr) =>
    match zl, zr with
    | .nil, _ =>
      let w0 : List SWrite := if zr = .nil then [.parentW (headQ p)] else []
      if zc = .black then
        let res := delFixup zr p
        (.OK, ⟨res.1, t.size - 1⟩, w0 ++ res.2)
      else (.OK, ⟨plug zr p, t.size - 1⟩, w0)
    | .node lc ll lv lr, .nil =>
      if zc = .black then
        let res := delFixup (.node lc ll lv lr) p
        (.OK, ⟨res.1, t.size - 1⟩, res.2)
      else (.OK, ⟨plug (.node lc ll lv lr) p, t.size - 1⟩, [])
    | .node lc ll lv lr, .node rc rl rv rr =>
      let m := minZ (.node rc rl rv rr)
      let mp := m.1
      let yc := m.2.1
      let yv := m.2.2.1
      let yr := m.2.2.2
      let ctx : Path := mp ++ ⟨zc, yv, .node lc ll lv lr, .R⟩ :: p
      let w0 : List SWrite :=
        if yr = .nil then
          [.parentW (some (match mp with | [] => yv | g :: _ => g.v))]
        else []
      if yc = .black then
        let res := delFixup yr ctx
        (.OK, ⟨res.1, t.size - 1⟩, w0 ++ res.2)
      else (.OK, ⟨plug yr ctx, t.size - 1⟩, w0)

/-- rb_tree_successor_node ancestor ascent: climb while the current
node is a right child; the first frame reached from a left child is the
successor, none when the climb reaches the sentinel. -/
def ascendL : Path → Option Int
  | [] => none
  | ⟨_, v, _, .L⟩ :: _ => some v
  | ⟨_, _, _, .R⟩ :: p => ascendL p

/-- rb_tree_predecessor_node ancestor ascent: climb while the current
node is a left child. -/
def ascendR : Path → Option Int
  | [] => none
  | ⟨_, v, _, .R⟩ :: _ => some v
  | ⟨_, _, _, .L⟩ :: p => ascendR p

/-- rb_successor: locate the key (absent gives NULL); with a right
child return the minimum of the right subtree, else the ascent result,
NULL when the ascent reaches the sentinel. -/
def rbSuccessor (t : RBTree) (k : Int) : Option Int :=
  match findZ t.root k [] with
  | none => none
  | some (p, _, _, _, zr) =>
    match zr with
    | .nil => ascendL p
    | .node rc rl rv rr => some (treeMinVal (.node rc rl rv rr))

/-- rb_predecessor, the mirror of rb_successor. -/
def rbPredecessor (t : RBTree) (k : Int) : Option Int :=
  match findZ t.root k [] with
  | none => none
  | some (p, _, zl, _, _) =>
    match zl with
    | .nil => ascendR p
    | .node lc ll lv lr => some (treeMaxVal (.node lc ll lv lr))

/-- rb_is_valid_node: fails on a red node with a red child, recurses,
fails on unequal reported black-heights, otherwise reports the common
child black-height plus one for a black node (the sentinel reports 1). -/
def isValidNode : Tree → Option Nat
  | .nil => some 1
  | .node c l _ r =>
    if c = .red ∧ (colorOf l = .red ∨ colorOf r = .red) then none
    else
      match isValidNode l, isValidNode r with
      | some lb, some rb =>
        if lb = rb then some (lb + (if c = .black then 1 else 0)) else none
      | _, _ => none

/-- rb_is_valid: false on a null tree; false when the root is a real
red node; otherwise the recursive check. -/
def rbIsValid : Option RBTree → Bool
  | none => false
  | some t =>
    if t.root ≠ .nil ∧ colorOf t.root ≠ .black then false
    else (isValidNode t.root).isSome

/-- rb_size: 0 on a null tree, otherwise the stored count. -/
def rbSizeA : Option RBTree → Nat
  | none => 0
  | some t => t.size

/-- rb_is_empty: true on a null tree. -/
def rbIsEmptyA : Option RBTree → Bool
  | none => true
  | some t => t.size == 0

/-- rb_search: NULL on a null tree (the data argument is a valid key in
this embedding, so the !data exit is not modeled separately). -/
def rbSearchA : Option RBTree → Int → Option Int
  | none, _ => none
  | some t, k => findVal t.root k

/-- rb_min: NULL on a null or empty tree. -/
def rbMinA : Option RBTree → Option Int
  | none => none
  | some t =>
    match t.root with
    | .nil => none
    | .node c l v r => some (treeMinVal (.node c l v r))

/-- rb_max: NULL on a null or empty tree. -/
def rbMaxA : Option RBTree → Option Int
  | none => none
  | some t =>
    match t.root with
    | .nil => none
    | .node c l v r => some (treeMaxVal (.node c l v r))

/-- rb_height: -1 on a null tree, else the node count of the longest
root-to-sentinel path. -/
def rbHeightA : Option RBTree → Int
  | none => -1
  | some t => (heightN t.root : Int)

/-- rb_inorder_walk with a visitor that records the visited values in
order: no call on a null tree. -/
def rbInorderWalkList : Option RBTree → List Int
  | none => []
  | some t => inorder t.root

/-- count_range_nodes from rbtree_utils.c.  cmp_min = compare(v, lo),
cmp_max = compare(v, hi); count the node when lo <= v <= hi; recurse
left when lo < v, right when v < hi, and into BOTH children (again)
when the node is in range. -/
def countRangeNodes : Tree → Int → Int → Nat
  | .nil, _, _ => 0
  | .node _ l v r, lo, hi =>
    (if lo ≤ v ∧ v ≤ hi then 1 else 0)
    + (if lo < v then countRangeNodes l lo hi else 0)
    + (if v < hi then countRangeNodes r lo hi else 0)
    + (if lo ≤ v ∧ v ≤ hi then countRangeNodes l lo hi + countRangeNodes r lo hi else 0)

/-- rb_count_range: 0 on a null tree (the key arguments are values in
this embedding, so the null-key exits are not modeled separately). -/
def rbCountRange : Option RBTree → Int → Int → Nat
  | none, _, _ => 0
  | some t, lo, hi => countRangeNodes t.root lo hi

/-- rb_left_rotate, as the local transform it performs on the subtree
rooted at x: y = x->right is promoted, x becomes y->left, y's former
left subtree becomes x's right subtree; colors are untouched.  The
parent-link bookkeeping of the C code amounts to re-plugging the
transformed subtree at the same position, handled by plug.  The
fallback (x with no real right child) is outside the C precondition. -/
def leftRot : Tree → Tree
  | .node c l v (.node rc rl rv rr) => .node rc (.node c l v rl) rv rr
  | t => t

/-- rb_right_rotate, mirror of leftRot. -/
def rightRot : Tree → Tree
  | .node c (.node lc ll lv lr) v r => .node lc ll lv (.node c lr v r)
  | t => t

/-- The tree returned by rb_tree_create. -/
def rbEmpty : RBTree := ⟨.nil, 0⟩

/-- Trees reachable from rb_tree_create by completed rb_insert and
rb_delete operations. -/
inductive Reachable : RBTree → Prop where
  | create : Reachable rbEmpty
  | ins (t : RBTree) (k : Int) : Reachable t → Reachable (rbInsert t k).2
  | del (t : RBTree) (k : Int) : Reachable t → Reachable (rbDelete t k).2.1

/-- The sentinel fields that delete-path code can touch, with their
values after rb_tree_create. -/
structure Sentinel where
  parent : Option Int
  color : Color
deriving DecidableEq

/-- Sentinel state after rb_tree_create: parent = itself, color BLACK. -/
def sentinel0 : Sentinel := ⟨none, .black⟩

/-- Apply the logged sentinel writes in order. -/
def applySW : Sentinel → List SWrite → Sentinel
  | s, [] => s
  | s, .parentW q :: ws => applySW ⟨q, s.color⟩ ws
  | s, .colorW c :: ws => applySW ⟨s.parent, c⟩ ws

/-! ### Basic structural lemmas -/

/-- The values strictly to the left of the hole of a context, in order. -/
def leftL : Path → List Int
  | [] => []
  | ⟨_, _, _, .L⟩ :: p => leftL p
  | ⟨_, v, o, .R⟩ :: p => leftL p ++ inorder o ++ [v]

/-- The values strictly to the right of the hole of a context, in order. -/
def rightL : Path → List Int
  | [] => []
  | ⟨_, v, o, .L⟩ :: p => v :: inorder o ++ rightL p
  | ⟨_, _, _, .R⟩ :: p => rightL p

theorem inorder_plug : ∀ (p : Path) (t : Tree),
    inorder (plug t p) = leftL p ++ (inorder t ++ rightL p)
  | [], t => by simp [plug, leftL, rightL]
  | ⟨c, v, o, .L⟩ :: p, t => by
    simp [plug, leftL, rightL, inorder_plug p, inorder]
  | ⟨c, v, o, .R⟩ :: p, t => by
    simp [plug, leftL, rightL, inorder_plug p, inorder]

theorem numNodes_eq_length : ∀ t : Tree, numNodes t = (inorder t).length
  | .nil => rfl
  | .node c l v r => by
    simp [numNodes, inorder, numNodes_eq_length l, numNodes_eq_length r]
    omega

theorem inorder_blackenRoot : ∀ t : Tree, inorder (blackenRoot t) = inorder t
  | .nil => rfl
  | .node _ _ _ _ => rfl

theorem inorder_setColor : ∀ (t : Tree) (c : Color), inorder (setColor t c) = inorder t
  | .nil, _ => rfl
  | .node _ _ _ _, _ => rfl

theorem plug_append : ∀ (a b : Path) (t : Tree), plug t (a ++ b) = plug (plug t a) b
  | [], b, t => rfl
  | ⟨c, v, o, .L⟩ :: a, b, t => by simp [plug, plug_append a b]
  | ⟨c, v, o, .R⟩ :: a, b, t => by simp [plug, plug_append a b]

/-! ### Order invariant: bounded binary-search-tree predicate -/

/-- Strict lower bound, none meaning unbounded. -/
def lbO : Option Int → Int → Prop
  | none, _ => True
  | some a, x => a < x

/-- Strict upper bound, none meaning unbounded. -/
def ubO : Option Int → Int → Prop
  | none, _ => True
  | some b, x => x < b

/-- Search-tree within strict bounds. -/
def BSTB : Option Int → Tree → Option Int → Prop
  | _, .nil, _ => True
  | lo, .node _ l v r, hi => lbO lo v ∧ ubO hi v ∧ BSTB lo l (some v) ∧ BSTB (some v) r hi

theorem lbO_lt {lo : Option Int} {v x : Int} (h : lbO lo v) (hvx : v < x) : lbO lo x := by
  cases lo with
  | none => trivial
  | some a => exact lt_trans h hvx

theorem ubO_gt {hi : Option Int} {v x : Int} (h : ubO hi v) (hxv : x < v) : ubO hi x := by
  cases hi with
  | none => trivial
  | some b => exact lt_trans hxv h

theorem bstb_weaken : ∀ (t : Tree) {lo hi lo' hi' : Option Int}, BSTB lo t hi →
    (∀ x, lbO lo x → lbO lo' x) → (∀ x, ubO hi x → ubO hi' x) → BSTB lo' t hi'
  | .nil, _, _, _, _, _, _, _ => trivial
  | .node c l v r, lo, hi, lo', hi', h, hl, hu => by
    obtain ⟨h1, h2, h3, h4⟩ := h
    exact ⟨hl v h1, hu v h2, bstb_weaken l h3 hl (fun x hx => hx),
      bstb_weaken r h4 (fun x hx => hx) hu⟩

theorem bstb_mem : ∀ (t : Tree) {lo hi : Option Int}, BSTB lo t hi →
    ∀ x ∈ inorder t, lbO lo x ∧ ubO hi x
  | .nil, _, _, _, x, hx => by simp [inorder] at hx
  | .node c l v r, lo, hi, h, x, hx => by
    obtain ⟨h1, h2, h3, h4⟩ := h
    simp only [inorder, List.mem_append, List.mem_cons] at hx
    rcases hx with hx | hx | hx
    · obtain ⟨ha, hb⟩ := bstb_mem l h3 x hx
      exact ⟨ha, ubO_gt h2 hb⟩
    · exact hx ▸ ⟨h1, h2⟩
    · obtain ⟨ha, hb⟩ := bstb_mem r h4 x hx
      exact ⟨lbO_lt h1 ha, hb⟩

theorem bstb_pairwise : ∀ (t : Tree) {lo hi : Option Int}, BSTB lo t hi →
    List.Pairwise (· < ·) (inorder t)
  | .nil, _, _, _ => List.Pairwise.nil
  | .node c l v r, lo, hi, h => by
    obtain ⟨h1, h2, h3, h4⟩ := h
    simp only [inorder]
    rw [List.pairwise_append]
    refine ⟨bstb_pairwise l h3, ?_, ?_⟩
    · rw [List.pairwise_cons]
      exact ⟨fun y hy => (bstb_mem r h4 y hy).1, bstb_pairwise r h4⟩
    · intro x hx y hy
      have hxv : x < v := (bstb_mem l h3 x hx).2
      rcases List.mem_cons.1 hy with rfl | hy
      · exact hxv
      · exact lt_trans hxv (bstb_mem r h4 y hy).1

theorem bstb_of_pairwise : ∀ (t : Tree) {lo hi : Option Int},
    List.Pairwise (· < ·) (inorder t) →
    (∀ x ∈ inorder t, lbO lo x ∧ ubO hi x) → BSTB lo t hi
  | .nil, _, _, _, _ => trivial
  | .node c l v r, lo, hi, hp, hb => by
    simp only [inorder] at hp hb
    rw [List.pairwise_append] at hp
    obtain ⟨hpl, hpr, hcross⟩ := hp
    rw [List.pairwise_cons] at hpr
    have hv := hb v (by simp)
    refine ⟨hv.1, hv.2, ?_, ?_⟩
    · refine bstb_of_pairwise l hpl (fun x hx => ?_)
      exact ⟨(hb x (by simp [hx])).1, hcross x hx v (by simp)⟩
    · refine bstb_of_pairwise r hpr.2 (fun x hx => ?_)
      exact ⟨hpr.1 x hx, (hb x (by simp [hx])).2⟩

theorem bstb_chain {t : Tree} {lo hi : Option Int} (h : BSTB lo t hi) :
    List.Chain' (· < ·) (inorder t) :=
  List.chain'_iff_pairwise.2 (bstb_pairwise t h)

theorem bstb_none_iff (t : Tree) :
    BSTB none t none ↔ List.Pairwise (· < ·) (inorder t) := by
  constructor
  · exact bstb_pairwise t
  · intro h
    exact bstb_of_pairwise t h (fun x _ => ⟨trivial, trivial⟩)

/-- Order validity of a context: plugging any subtree that fits the
hole bounds yields a search tree. -/
inductive ZBST : Path → Option Int → Option Int → Prop where
  | top : ZBST [] none none
  | Lf {p : Path} {lo hi : Option Int} (c : Color) (v : Int) (o : Tree) :
      ZBST p lo hi → lbO lo v → ubO hi v → BSTB (some v) o hi →
      ZBST (⟨c, v, o, .L⟩ :: p) lo (some v)
  | Rf {p : Path} {lo hi : Option Int} (c : Color) (v : Int) (o : Tree) :
      ZBST p lo hi → lbO lo v → ubO hi v → BSTB lo o (some v) →
      ZBST (⟨c, v, o, .R⟩ :: p) (some v) hi

theorem plug_zbst {p : Path} {lo hi : Option Int} (hz : ZBST p lo hi) :
    ∀ {t : Tree}, BSTB lo t hi → BSTB none (plug t p) none := by
  induction hz with
  | top => intro t ht; exact ht
  | Lf c v o hp h1 h2 ho ih =>
    intro t ht
    exact ih ⟨h1, h2, ht, ho⟩
  | Rf c v o hp h1 h2 ho ih =>
    intro t ht
    exact ih ⟨h1, h2, ho, ht⟩

/-! ### Descent lemmas -/

theorem insDescend_plug : ∀ (t : Tree) (k : Int) (acc p' : Path),
    insDescend t k acc = some p' → plug .nil p' = plug t acc
  | .nil, k, acc, p', h => by
    simp only [insDescend, Option.some.injEq] at h
    subst h; rfl
  | .node c l v r, k, acc, p', h => by
    simp only [insDescend] at h
    split_ifs at h with h1 h2
    · exact insDescend_plug l k _ p' h
    · exact insDescend_plug r k _ p' h

theorem insDescend_zbst : ∀ (t : Tree) (k : Int) (acc : Path) {lo hi : Option Int},
    BSTB lo t hi → ZBST acc lo hi → lbO lo k → ubO hi k →
    ∀ {p' : Path}, insDescend t k acc = some p' →
    ∃ lo' hi', ZBST p' lo' hi' ∧ lbO lo' k ∧ ubO hi' k
  | .nil, k, acc, lo, hi, ht, hz, hk1, hk2, p', h => by
    simp only [insDescend, Option.some.injEq] at h
    subst h; exact ⟨lo, hi, hz, hk1, hk2⟩
  | .node c l v r, k, acc, lo, hi, ht, hz, hk1, hk2, p', h => by
    obtain ⟨h1, h2, h3, h4⟩ := ht
    simp only [insDescend] at h
    split_ifs at h with hlt hgt
    · exact insDescend_zbst l k _ h3 (ZBST.Lf c v r hz h1 h2 h4) hk1 hlt h
    · exact insDescend_zbst r k _ h4 (ZBST.Rf c v l hz h1 h2 h3) hgt hk2 h

theorem insDescend_none_iff : ∀ (t : Tree) (k : Int) (acc : Path) {lo hi : Option Int},
    BSTB lo t hi → lbO lo k → ubO hi k →
    (insDescend t k acc = none ↔ k ∈ inorder t)
  | .nil, k, acc, lo, hi, ht, hk1, hk2 => by
    simp [insDescend, inorder]
  | .node c l v r, k, acc, lo, hi, ht, hk1, hk2 => by
    obtain ⟨h1, h2, h3, h4⟩ := ht
    simp only [insDescend, inorder, List.mem_append, List.mem_cons]
    split_ifs with hlt hgt
    · rw [insDescend_none_iff l k _ h3 hk1 hlt]
      constructor
      · intro h; exact Or.inl h
      · rintro (h | rfl | h)
        · exact h
        · exact absurd hlt (lt_irrefl _)
        · exact absurd (bstb_mem r h4 k h).1 (by simp [lbO]; omega)
    · rw [insDescend_none_iff r k _ h4 hgt hk2]
      constructor
      · intro h; exact Or.inr (Or.inr h)
      · rintro (h | rfl | h)
        · exact absurd (bstb_mem l h3 k h).2 (by simp [ubO]; omega)
        · exact absurd hgt (lt_irrefl _)
        · exact h
    · simp only [false_iff, not_or] at *
      have : k = v := by omega
      simp [this]

theorem findZ_plug : ∀ (t : Tree) (k : Int) (acc : Path)
    {p' : Path} {zc : Color} {zl : Tree} {zv : Int} {zr : Tree},
    findZ t k acc = some (p', zc, zl, zv, zr) → plug (.node zc zl zv zr) p' = plug t acc
  | .nil, k, acc, p', zc, zl, zv, zr, h => by simp [findZ] at h
  | .node c l v r, k, acc, p', zc, zl, zv, zr, h => by
    simp only [findZ] at h
    split_ifs at h with h1 h2
    · exact findZ_plug l k _ h
    · exact findZ_plug r k _ h
    · simp only [Option.some.injEq, Prod.mk.injEq] at h
      obtain ⟨rfl, rfl, rfl, rfl, rfl⟩ := h
      rfl

theorem findZ_zbst : ∀ (t : Tree) (k : Int) (acc : Path) {lo hi : Option Int},
    BSTB lo t hi → ZBST acc lo hi → lbO lo k → ubO hi k →
    ∀ {p' : Path} {zc : Color} {zl : Tree} {zv : Int} {zr : Tree},
    findZ t k acc = some (p', zc, zl, zv, zr) →
    zv = k ∧ ∃ lo' hi', ZBST p' lo' hi' ∧ BSTB lo' (.node zc zl zv zr) hi'
  | .nil, k, acc, lo, hi, ht, hz, hk1, hk2, p', zc, zl, zv, zr, h => by
    simp [findZ] at h
  | .node c l v r, k, acc, lo, hi, ht, hz, hk1, hk2, p', zc, zl, zv, zr, h => by
    obtain ⟨h1, h2, h3, h4⟩ := ht
    simp only [findZ] at h
    split_ifs at h with hlt hgt
    · exact findZ_zbst l k _ h3 (ZBST.Lf c v r hz h1 h2 h4) hk1 hlt h
    · exact findZ_zbst r k _ h4 (ZBST.Rf c v l hz h1 h2 h3) hgt hk2 h
    · simp only [Option.some.injEq, Prod.mk.injEq] at h
      obtain ⟨rfl, rfl, rfl, rfl, rfl⟩ := h
      exact ⟨by omega, lo, hi, hz, h1, h2, h3, h4⟩

theorem findZ_none_iff : ∀ (t : Tree) (k : Int) (acc : Path) {lo hi : Option Int},
    BSTB lo t hi → lbO lo k → ubO hi k →
    (findZ t k acc = none ↔ k ∉ inorder t)
  | .nil, k, acc, lo, hi, ht, hk1, hk2 => by
    simp [findZ, inorder]
  | .node c l v r, k, acc, lo, hi, ht, hk1, hk2 => by
    obtain ⟨h1, h2, h3, h4⟩ := ht
    simp only [findZ, inorder, List.mem_append, List.mem_cons]
    split_ifs with hlt hgt
    · rw [findZ_none_iff l k _ h3 hk1 hlt]
      constructor
      · intro h hm
        rcases hm with hm | rfl | hm
        · exact h hm
        · exact absurd hlt (lt_irrefl _)
        · exact absurd (bstb_mem r h4 k hm).1 (by simp [lbO]; omega)
      · intro h hm; exact h (Or.inl hm)
    · rw [findZ_none_iff r k _ h4 hgt hk2]
      constructor
      · intro h hm
        rcases hm with hm | rfl | hm
        · exact absurd (bstb_mem l h3 k hm).2 (by simp [ubO]; omega)
        · exact absurd hgt (lt_irrefl _)
        · exact h hm
      · intro h hm; exact h (Or.inr (Or.inr hm))
    · have : k = v := by omega
      simp [this]

theorem minZ_plug : ∀ (l : Tree) (c : Color) (v : Int) (r : Tree),
    plug (.node (minZ (.node c l v r)).2.1 .nil (minZ (.node c l v r)).2.2.1
          (minZ (.node c l v r)).2.2.2)
      (minZ (.node c l v r)).1 = .node c l v r
  | .nil, c, v, r => rfl
  | .node lc ll lv lr, c, v, r => by
    have ih := minZ_plug ll lc lv lr
    simp only [minZ]
    rw [plug_append, ih]
    rfl

theorem minZ_zbst : ∀ (t : Tree) {lo hi : Option Int}, BSTB lo t hi → t ≠ .nil →
    lbO lo (minZ t).2.2.1 ∧ ubO hi (minZ t).2.2.1 ∧
    ∀ (rest : Path), ZBST rest (some (minZ t).2.2.1) hi →
      ∃ hi', ZBST ((minZ t).1 ++ rest) (some (minZ t).2.2.1) hi'
        ∧ BSTB (some (minZ t).2.2.1) (minZ t).2.2.2 hi'
  | .nil, _, _, _, hne => absurd rfl hne
  | .node c .nil v r, lo, hi, ht, _ => by
    obtain ⟨h1, h2, _, h4⟩ := ht
    exact ⟨h1, h2, fun rest hz => ⟨hi, hz, h4⟩⟩
  | .node c (.node lc ll lv lr) v r, lo, hi, ht, _ => by
    obtain ⟨h1, h2, h3, h4⟩ := ht
    obtain ⟨ih1, ih2, ih3⟩ := minZ_zbst (.node lc ll lv lr) h3 (by simp)
    refine ⟨ih1, ubO_gt h2 ih2, ?_⟩
    intro rest hz
    have hz' : ZBST (⟨c, v, r, .L⟩ :: rest) (some (minZ (.node lc ll lv lr)).2.2.1) (some v) :=
      ZBST.Lf c v r hz ih2 h2 h4
    obtain ⟨hi', ha, hb⟩ := ih3 (⟨c, v, r, .L⟩ :: rest) hz'
    refine ⟨hi', ?_, hb⟩
    simp only [minZ, List.append_assoc, List.cons_append, List.nil_append]
    exact ha

/-! ### Fixups preserve the in-order sequence -/

theorem insFixup_inorder : ∀ (z : Tree) (p : Path),
    inorder (insFixup z p) = inorder (plug z p)
  | z, [] => rfl
  | z, ⟨.black, pv, po, pd⟩ :: p => rfl
  | z, [⟨.red, pv, po, pd⟩] => rfl
  | z, ⟨.red, pv, po, .L⟩ :: ⟨gc, gv, go, .L⟩ :: p => by
    rw [insFixup.eq_def]; simp only []
    split_ifs with h
    · rw [insFixup_inorder _ p]
      simp [inorder_plug, plug, inorder, inorder_setColor, List.append_assoc]
    · simp [inorder_plug, plug, inorder, List.append_assoc]
  | z, ⟨.red, pv, po, .R⟩ :: ⟨gc, gv, go, .L⟩ :: p => by
    rw [insFixup.eq_def]; simp only []
    split_ifs with h
    · rw [insFixup_inorder _ p]
      simp [inorder_plug, plug, inorder, inorder_setColor, List.append_assoc]
    · cases z <;> simp [inorder_plug, plug, inorder, List.append_assoc]
  | z, ⟨.red, pv, po, .L⟩ :: ⟨gc, gv, go, .R⟩ :: p => by
    rw [insFixup.eq_def]; simp only []
    split_ifs with h
    · rw [insFixup_inorder _ p]
      simp [inorder_plug, plug, inorder, inorder_setColor, List.append_assoc]
    · cases z <;> simp [inorder_plug, plug, inorder, List.append_assoc]
  | z, ⟨.red, pv, po, .R⟩ :: ⟨gc, gv, go, .R⟩ :: p => by
    rw [insFixup.eq_def]; simp only []
    split_ifs with h
    · rw [insFixup_inorder _ p]
      simp [inorder_plug, plug, inorder, inorder_setColor, List.append_assoc]
    · simp [inorder_plug, plug, inorder, List.append_assoc]

theorem delCase34L_inorder (x : Tree) (pc : Color) (pv : Int) (w : Tree) (rest : Path) :
    inorder (delCase34L x pc pv w rest) = inorder (plug (.node pc x pv w) rest) := by
  rw [delCase34L.eq_def]
  cases w with
  | nil => simp [inorder_blackenRoot]
  | node wc wl wv wr =>
    simp only []
    split_ifs with h
    · cases wl with
      | nil => simp [inorder_blackenRoot]
      | node a1 a2 a3 a4 =>
        simp [inorder_blackenRoot, inorder_plug, inorder, List.append_assoc]
    · simp [inorder_blackenRoot, inorder_plug, inorder, inorder_setColor, List.append_assoc]

theorem delCase34R_inorder (x : Tree) (pc : Color) (pv : Int) (w : Tree) (rest : Path) :
    inorder (delCase34R x pc pv w rest) = inorder (plug (.node pc w pv x) rest) := by
  rw [delCase34R.eq_def]
  cases w with
  | nil => simp [inorder_blackenRoot]
  | node wc wl wv wr =>
    simp only []
    split_ifs with h
    · cases wr with
      | nil => simp [inorder_blackenRoot]
      | node a1 a2 a3 a4 =>
        simp [inorder_blackenRoot, inorder_plug, inorder, List.append_assoc]
    · simp [inorder_blackenRoot, inorder_plug, inorder, inorder_setColor, List.append_assoc]

theorem delFixup_inorder : ∀ (x : Tree) (p : Path),
    inorder (delFixup x p).1 = inorder (plug x p)
  | x, [] => by
    rw [delFixup]
    simp [inorder_blackenRoot, plug]
  | x, ⟨pc, pv, w, .L⟩ :: p => by
    rw [delFixup.eq_def]
    simp only []
    by_cases hred : colorOf x = Color.red
    · rw [if_pos hred]; dsimp only
      simp [inorder_plug, inorder_setColor, leftL, rightL]
    · rw [if_neg hred]
      cases w with
      | node wc wl wv wr =>
        cases wc with
        | red =>
          simp only []
          by_cases h2 : colorOf (leftT wl) = Color.black ∧ colorOf (rightT wl) = Color.black
          · rw [if_pos h2]
            simp [inorder_plug, inorder, leftL, rightL, inorder_setColor, List.append_assoc]
          · rw [if_neg h2]
            rw [delCase34L_inorder]
            simp [inorder_plug, inorder, leftL, rightL, List.append_assoc]
        | black =>
          simp only []
          by_cases h2 : colorOf (leftT (Tree.node Color.black wl wv wr)) = Color.black
              ∧ colorOf (rightT (Tree.node Color.black wl wv wr)) = Color.black
          · rw [if_pos h2]
            rw [delFixup_inorder _ p]
            simp [inorder_plug, inorder, leftL, rightL, inorder_setColor, List.append_assoc]
          · rw [if_neg h2]
            rw [delCase34L_inorder]
            simp [inorder_plug, inorder, leftL, rightL, List.append_assoc]
      | nil =>
        simp only []
        by_cases h2 : colorOf (leftT Tree.nil) = Color.black
            ∧ colorOf (rightT Tree.nil) = Color.black
        · rw [if_pos h2]
          rw [delFixup_inorder _ p]
          simp [inorder_plug, inorder, leftL, rightL, inorder_setColor, List.append_assoc]
        · rw [if_neg h2]
          rw [delCase34L_inorder]
          simp [inorder_plug, inorder, leftL, rightL, List.append_assoc]
  | x, ⟨pc, pv, w, .R⟩ :: p => by
    rw [delFixup.eq_def]
    simp only []
    by_cases hred : colorOf x = Color.red
    · rw [if_pos hred]; dsimp only
      simp [inorder_plug, inorder_setColor, leftL, rightL]
    · rw [if_neg hred]
      cases w with
      | node wc wl wv wr =>
        cases wc with
        | red =>
          simp only []
          by_cases h2 : colorOf (leftT wr) = Color.black ∧ colorOf (rightT wr) = Color.black
          · rw [if_pos h2]
            simp [inorder_plug, inorder, leftL, rightL, inorder_setColor, List.append_assoc]
          · rw [if_neg h2]
            rw [delCase34R_inorder]
            simp [inorder_plug, inorder, leftL, rightL, List.append_assoc]
        | black =>
          simp only []
          by_cases h2 : colorOf (leftT (Tree.node Color.black wl wv wr)) = Color.black
              ∧ colorOf (rightT (Tree.node Color.black wl wv wr)) = Color.black
          · rw [if_pos h2]
            rw [delFixup_inorder _ p]
            simp [inorder_plug, inorder, leftL, rightL, inorder_setColor, List.append_assoc]
          · rw [if_neg h2]
            rw [delCase34R_inorder]
            simp [inorder_plug, inorder, leftL, rightL, List.append_assoc]
      | nil =>
        simp only []
        by_cases h2 : colorOf (leftT Tree.nil) = Color.black
            ∧ colorOf (rightT Tree.nil) = Color.black
        · rw [if_pos h2]
          rw [delFixup_inorder _ p]
          simp [inorder_plug, inorder, leftL, rightL, inorder_setColor, List.append_assoc]
        · rw [if_neg h2]
          rw [delCase34R_inorder]
          simp [inorder_plug, inorder, leftL, rightL, List.append_assoc]

/-! ### Color and black-height invariant -/

/-- Balanced coloring judgment: Bal t c n means t has root color c (nil
counts black), no red node has a red child inside t, and every path
from t to a sentinel passes n black real nodes. -/
inductive Bal : Tree → Color → Nat → Prop where
  | nilB : Bal .nil .black 0
  | redB {l r : Tree} {v : Int} {n : Nat} :
      Bal l .black n → Bal r .black n → Bal (.node .red l v r) .red n
  | blackB {l r : Tree} {v : Int} {n : Nat} {cl cr : Color} :
      Bal l cl n → Bal r cr n → Bal (.node .black l v r) .black (n + 1)

/-- Balanced except that a red root may have red children (the transient
cursor shape of the delete fixup after a case-2 step below a red
parent). -/
inductive BalX : Tree → Nat → Prop where
  | ofBal {t : Tree} {c : Color} {n : Nat} : Bal t c n → BalX t n
  | redX {l r : Tree} {cl cr : Color} {v : Int} {n : Nat} :
      Bal l cl n → Bal r cr n → BalX (.node .red l v r) n

theorem bal_colorOf {t : Tree} {c : Color} {n : Nat} (h : Bal t c n) : colorOf t = c := by
  cases h <;> rfl

theorem bal_setBlack_of_red {t : Tree} {n : Nat} (h : Bal t .red n) :
    Bal (setColor t .black) .black (n + 1) := by
  cases h with
  | redB hl hr => exact .blackB hl hr

theorem balX_black {t : Tree} {n : Nat} (h : BalX t n) (hc : colorOf t = .black) :
    Bal t .black n := by
  cases h with
  | ofBal h0 => cases h0 <;> first | exact .nilB | exact .blackB ‹_› ‹_› | exact absurd hc (by simp [colorOf])
  | redX hl hr => exact absurd hc (by simp [colorOf])

theorem balX_red {t : Tree} {n : Nat} (h : BalX t n) (hc : colorOf t = .red) :
    ∃ l v r cl cr, t = .node .red l v r ∧ Bal l cl n ∧ Bal r cr n := by
  cases h with
  | ofBal h0 =>
    cases h0 with
    | nilB => exact absurd hc (by simp [colorOf])
    | redB hl hr => exact ⟨_, _, _, _, _, rfl, hl, hr⟩
    | blackB hl hr => exact absurd hc (by simp [colorOf])
  | redX hl hr => exact ⟨_, _, _, _, _, rfl, hl, hr⟩

theorem blackenRoot_bal {t : Tree} {c : Color} {m : Nat} (h : Bal t c m) :
    ∃ m', Bal (blackenRoot t) .black m' := by
  cases h with
  | nilB => exact ⟨0, .nilB⟩
  | redB hl hr => exact ⟨_, .blackB hl hr⟩
  | blackB hl hr => exact ⟨_, .blackB hl hr⟩

/-- Color of the head frame of a context; black for the empty context
(the sentinel is the parent of the root). -/
def headC : Path → Color
  | [] => .black
  | f :: _ => f.c

/-- Internal consistency of a context: PathBal p n m means the frames
are mutually consistent (each sibling balanced at the hole level, no
red frame on a red frame, a red frame never outermost), the hole
expects black-height n, and the whole plugged tree has black-height m.
The subtree in the hole may still clash in color with the head frame -
that is exactly the violation the fixup loops repair. -/
inductive PathBal : Path → Nat → Nat → Prop where
  | top {n : Nat} : PathBal [] n n
  | blackL {p : Path} {n m : Nat} {co : Color} (v : Int) (o : Tree) :
      Bal o co n → PathBal p (n + 1) m → PathBal (⟨.black, v, o, .L⟩ :: p) n m
  | blackR {p : Path} {n m : Nat} {co : Color} (v : Int) (o : Tree) :
      Bal o co n → PathBal p (n + 1) m → PathBal (⟨.black, v, o, .R⟩ :: p) n m
  | redL {p : Path} {n m : Nat} (v : Int) (o : Tree) :
      Bal o .black n → PathBal p n m → headC p = .black → p ≠ [] →
      PathBal (⟨.red, v, o, .L⟩ :: p) n m
  | redR {p : Path} {n m : Nat} (v : Int) (o : Tree) :
      Bal o .black n → PathBal p n m → headC p = .black → p ≠ [] →
      PathBal (⟨.red, v, o, .R⟩ :: p) n m

/-- The outermost frame of the context is black (the root of the
original tree); trivially true for the empty context. -/
def rootedOK : Path → Prop
  | [] => True
  | [f] => f.c = .black
  | _ :: f :: p => rootedOK (f :: p)

theorem rootedOK_tail (f : Frame) (p : Path) (h : rootedOK (f :: p)) : rootedOK p := by
  cases p with
  | nil => trivial
  | cons g q => exact h

theorem rootedOK_cons (f : Frame) (p : Path)
    (h1 : p = [] → f.c = .black) (h2 : rootedOK p) : rootedOK (f :: p) := by
  cases p with
  | nil => exact h1 rfl
  | cons g q => exact h2

theorem plug_balE : ∀ {p : Path} {n m : Nat}, PathBal p n m →
    ∀ {t : Tree} {ct : Color}, Bal t ct n → (headC p = .red → ct = .black) →
    ∃ c', Bal (plug t p) c' m := by
  intro p n m hp
  induction hp with
  | top => intro t ct h _; exact ⟨ct, h⟩
  | blackL v o ho hp ih =>
    intro t ct h _
    exact ih (.blackB h ho) (fun _ => rfl)
  | blackR v o ho hp ih =>
    intro t ct h _
    exact ih (.blackB ho h) (fun _ => rfl)
  | redL v o ho hp hhead hne ih =>
    intro t ct h hcompat
    have hct : ct = .black := hcompat rfl
    subst hct
    exact ih (.redB h ho) (fun hh => absurd (hhead ▸ hh) (by simp))
  | redR v o ho hp hhead hne ih =>
    intro t ct h hcompat
    have hct : ct = .black := hcompat rfl
    subst hct
    exact ih (.redB ho h) (fun hh => absurd (hhead ▸ hh) (by simp))

theorem plug_balBlack : ∀ {p : Path} {n m : Nat}, PathBal p n m →
    ∀ {t : Tree} {ct : Color}, Bal t ct n → (headC p = .red → ct = .black) →
    rootedOK p → (p = [] → ct = .black) →
    Bal (plug t p) .black m := by
  intro p n m hp
  induction hp with
  | top =>
    intro t ct h _ _ hroot
    exact hroot rfl ▸ h
  | blackL v o ho hp ih =>
    intro t ct h _ hr _
    exact ih (.blackB h ho) (fun hh => rfl) (rootedOK_tail _ _ hr)
      (fun he => rfl)
  | blackR v o ho hp ih =>
    intro t ct h _ hr _
    exact ih (.blackB ho h) (fun hh => rfl) (rootedOK_tail _ _ hr)
      (fun he => rfl)
  | redL v o ho hp hhead hne ih =>
    intro t ct h hcompat hr _
    have hct : ct = .black := hcompat rfl
    subst hct
    exact ih (.redB h ho) (fun hh => absurd (hhead ▸ hh) (by simp))
      (rootedOK_tail _ _ hr) (fun he => absurd he hne)
  | redR v o ho hp hhead hne ih =>
    intro t ct h hcompat hr _
    have hct : ct = .black := hcompat rfl
    subst hct
    exact ih (.redB ho h) (fun hh => absurd (hhead ▸ hh) (by simp))
      (rootedOK_tail _ _ hr) (fun he => absurd he hne)

/-! ### Insert preserves the balance invariant -/

theorem insDescend_pathbal : ∀ (t : Tree) (k : Int) (acc : Path) {ct : Color} {nt m : Nat},
    Bal t ct nt → PathBal acc nt m → (headC acc = .red → ct = .black) →
    (ct = .red → acc ≠ []) →
    ∀ {p' : Path}, insDescend t k acc = some p' → PathBal p' 0 m
  | .nil, k, acc, ct, nt, m, ht, hp, _, _, p', h => by
    cases ht with
    | nilB =>
      simp only [insDescend, Option.some.injEq] at h
      subst h; exact hp
  | .node c l v r, k, acc, ct, nt, m, ht, hp, hcompat, hne, p', h => by
    simp only [insDescend] at h
    cases ht with
    | redB hl hr =>
      have hhead : headC acc = .black := by
        cases hh : headC acc with
        | black => rfl
        | red => exact absurd (hcompat hh) (by simp)
      split_ifs at h with hlt hgt
      · exact insDescend_pathbal l k _ hl
          (.redL v r hr hp hhead (hne rfl)) (fun _ => rfl) (fun hc => by simp) h
      · exact insDescend_pathbal r k _ hr
          (.redR v l hl hp hhead (hne rfl)) (fun _ => rfl) (fun hc => by simp) h
    | blackB hl hr =>
      split_ifs at h with hlt hgt
      · exact insDescend_pathbal l k _ hl
          (.blackL v r hr hp) (fun hh => by simp [headC] at hh) (fun hc => by simp) h
      · exact insDescend_pathbal r k _ hr
          (.blackR v l hl hp) (fun hh => by simp [headC] at hh) (fun hc => by simp) h

theorem insFixup_bal : ∀ (p : Path) (z : Tree) {n m : Nat},
    Bal z .red n → PathBal p n m →
    ∃ m', Bal (blackenRoot (insFixup z p)) .black m'
  | [], z, n, m, hz, hp => by
    rw [insFixup]
    exact blackenRoot_bal hz
  | ⟨.black, pv, po, pd⟩ :: p, z, n, m, hz, hp => by
    rw [insFixup.eq_def]
    simp only []
    cases pd <;>
      exact (plug_balE hp hz (by simp [headC])).elim (fun c' hc' => blackenRoot_bal hc')
  | [⟨.red, pv, po, pd⟩], z, n, m, hz, hp => by
    cases hp with
    | redL _ _ _ _ _ hne => exact absurd rfl hne
    | redR _ _ _ _ _ hne => exact absurd rfl hne
  | ⟨.red, pv, po, pd⟩ :: ⟨gc, gv, go, gd⟩ :: p, z, n, m, hz, hp => by
    have hpo : Bal po .black n ∧ PathBal (⟨gc, gv, go, gd⟩ :: p) n m ∧ gc = .black := by
      cases hp with
      | redL _ _ ho hp2 hhead _ => exact ⟨ho, hp2, hhead⟩
      | redR _ _ ho hp2 hhead _ => exact ⟨ho, hp2, hhead⟩
    obtain ⟨hpo, hp2, hgc⟩ := hpo
    subst hgc
    have hgo : ∃ cg, Bal go cg n ∧ PathBal p (n + 1) m := by
      cases hp2 with
      | blackL _ _ ho hp3 => exact ⟨_, ho, hp3⟩
      | blackR _ _ ho hp3 => exact ⟨_, ho, hp3⟩
    obtain ⟨cg, hgo, hp3⟩ := hgo
    rw [insFixup.eq_def]
    simp only []
    split_ifs with hred
    · have hgored : cg = .red := by rw [← bal_colorOf hgo]; exact hred.symm ▸ rfl
      subst hgored
      have hgoblack : Bal (setColor go .black) .black (n + 1) := bal_setBlack_of_red hgo
      cases gd <;> cases pd <;> simp only []
      · exact insFixup_bal p _ (.redB (.blackB hz hpo) hgoblack) hp3
      · exact insFixup_bal p _ (.redB (.blackB hpo hz) hgoblack) hp3
      · exact insFixup_bal p _ (.redB hgoblack (.blackB hz hpo)) hp3
      · exact insFixup_bal p _ (.redB hgoblack (.blackB hpo hz)) hp3
    · have hgoblk : cg = .black := by
        cases cg with
        | black => rfl
        | red => exact absurd (bal_colorOf hgo) hred
      subst hgoblk
      cases hz with
      | redB hzl hzr =>
        cases gd <;> cases pd
        · exact (plug_balE hp3 (.blackB (.redB hzl hzr) (.redB hpo hgo)) (fun _ => rfl)).elim
            (fun c' hc' => blackenRoot_bal hc')
        · exact (plug_balE hp3 (.blackB (.redB hpo hzl) (.redB hzr hgo)) (fun _ => rfl)).elim
            (fun c' hc' => blackenRoot_bal hc')
        · exact (plug_balE hp3 (.blackB (.redB hgo hzl) (.redB hzr hpo)) (fun _ => rfl)).elim
            (fun c' hc' => blackenRoot_bal hc')
        · exact (plug_balE hp3 (.blackB (.redB hgo hpo) (.redB hzl hzr)) (fun _ => rfl)).elim
            (fun c' hc' => blackenRoot_bal hc')

theorem rbInsert_bal (T : RBTree) (k : Int) {N : Nat} (h : Bal T.root .black N) :
    ∃ N', Bal (rbInsert T k).2.root .black N' := by
  rw [rbInsert]
  cases hd : insDescend T.root k [] with
  | none => exact ⟨N, h⟩
  | some p' =>
    have hp : PathBal p' 0 N :=
      insDescend_pathbal T.root k [] h .top (by simp [headC]) (by simp) hd
    exact insFixup_bal p' _ (.redB .nilB .nilB) hp

/-! ### Delete preserves the balance invariant -/

theorem findZ_pathbal : ∀ (t : Tree) (k : Int) (acc : Path) {ct : Color} {nt m : Nat},
    Bal t ct nt → PathBal acc nt m → (headC acc = .red → ct = .black) →
    (ct = .red → acc ≠ []) → rootedOK acc → (acc = [] → ct = .black) →
    ∀ {p' : Path} {zc : Color} {zl : Tree} {zv : Int} {zr : Tree},
    findZ t k acc = some (p', zc, zl, zv, zr) →
    ∃ nz, Bal (.node zc zl zv zr) zc nz ∧ PathBal p' nz m
      ∧ (headC p' = .red → zc = .black) ∧ (zc = .red → p' ≠ [])
      ∧ rootedOK p' ∧ (p' = [] → zc = .black)
  | .nil, k, acc, ct, nt, m, ht, hp, _, _, _, _, p', zc, zl, zv, zr, h => by
    simp [findZ] at h
  | .node c l v r, k, acc, ct, nt, m, ht, hp, hcompat, hne, hroot, h0, p', zc, zl, zv, zr, h => by
    simp only [findZ] at h
    cases ht with
    | redB hl hr =>
      have hhead : headC acc = .black := by
        cases hh : headC acc with
        | black => rfl
        | red => exact absurd (hcompat hh) (by simp)
      split_ifs at h with hlt hgt
      · exact findZ_pathbal l k _ hl (.redL v r hr hp hhead (hne rfl)) (fun _ => rfl)
          (fun hc => by simp)
          (rootedOK_cons _ _ (fun he => absurd he (hne rfl)) hroot) (by simp) h
      · exact findZ_pathbal r k _ hr (.redR v l hl hp hhead (hne rfl)) (fun _ => rfl)
          (fun hc => by simp)
          (rootedOK_cons _ _ (fun he => absurd he (hne rfl)) hroot) (by simp) h
      · simp only [Option.some.injEq, Prod.mk.injEq] at h
        obtain ⟨rfl, rfl, rfl, rfl, rfl⟩ := h
        exact ⟨_, .redB hl hr, hp, fun hh => absurd (hcompat hh) (by simp), fun _ => hne rfl,
          hroot, fun he => absurd (h0 he) (by simp)⟩
    | blackB hl hr =>
      split_ifs at h with hlt hgt
      · exact findZ_pathbal l k _ hl (.blackL v r hr hp) (fun hh => by simp [headC] at hh)
          (fun hc => by simp)
          (rootedOK_cons _ _ (fun _ => rfl) hroot) (by simp) h
      · exact findZ_pathbal r k _ hr (.blackR v l hl hp) (fun hh => by simp [headC] at hh)
          (fun hc => by simp)
          (rootedOK_cons _ _ (fun _ => rfl) hroot) (by simp) h
      · simp only [Option.some.injEq, Prod.mk.injEq] at h
        obtain ⟨rfl, rfl, rfl, rfl, rfl⟩ := h
        exact ⟨_, .blackB hl hr, hp, fun _ => rfl, fun hc => by simp at hc,
          hroot, fun _ => rfl⟩

theorem minZ_bal : ∀ (t : Tree) {ct : Color} {nt : Nat}, Bal t ct nt → t ≠ .nil →
    ∀ (rest : Path) {m : Nat}, PathBal rest nt m → (headC rest = .red → ct = .black) →
    rootedOK rest → rest ≠ [] →
    ∃ ny, Bal (.node (minZ t).2.1 .nil (minZ t).2.2.1 (minZ t).2.2.2) (minZ t).2.1 ny
      ∧ PathBal ((minZ t).1 ++ rest) ny m
      ∧ (headC ((minZ t).1 ++ rest) = .red → (minZ t).2.1 = .black)
      ∧ rootedOK ((minZ t).1 ++ rest) ∧ (minZ t).1 ++ rest ≠ []
  | .nil, ct, nt, ht, hnn, rest, m, hp, hcompat, hroot, hne => absurd rfl hnn
  | .node c .nil v r, ct, nt, ht, _, rest, m, hp, hcompat, hroot, hne => by
    cases ht with
    | redB hl hr =>
      exact ⟨_, .redB hl hr, hp, fun hh => absurd (hcompat hh) (by simp),
        hroot, hne⟩
    | blackB hl hr =>
      exact ⟨_, .blackB hl hr, hp, fun _ => rfl, hroot, hne⟩
  | .node c (.node lc ll lv lr) v r, ct, nt, ht, _, rest, m, hp, hcompat, hroot, hne => by
    have key : ∀ {cl' : Color} {nl : Nat}, Bal (.node lc ll lv lr) cl' nl →
        PathBal (⟨c, v, r, .L⟩ :: rest) nl m →
        (headC (⟨c, v, r, .L⟩ :: rest) = .red → cl' = .black) →
        ∃ ny, Bal (.node (minZ (.node lc ll lv lr)).2.1 .nil
              (minZ (.node lc ll lv lr)).2.2.1 (minZ (.node lc ll lv lr)).2.2.2)
            (minZ (.node lc ll lv lr)).2.1 ny
          ∧ PathBal ((minZ (.node lc ll lv lr)).1 ++ ⟨c, v, r, .L⟩ :: rest) ny m
          ∧ (headC ((minZ (.node lc ll lv lr)).1 ++ ⟨c, v, r, .L⟩ :: rest) = .red →
              (minZ (.node lc ll lv lr)).2.1 = .black)
          ∧ rootedOK ((minZ (.node lc ll lv lr)).1 ++ ⟨c, v, r, .L⟩ :: rest)
          ∧ (minZ (.node lc ll lv lr)).1 ++ ⟨c, v, r, .L⟩ :: rest ≠ [] := by
      intro cl' nl hl hp' hcompat'
      exact minZ_bal (.node lc ll lv lr) hl (by simp) (⟨c, v, r, .L⟩ :: rest) hp'
        hcompat' (rootedOK_cons _ _ (fun he => absurd he hne) hroot) (by simp)
    have hmain : ∃ ny, Bal (.node (minZ (.node lc ll lv lr)).2.1 .nil
            (minZ (.node lc ll lv lr)).2.2.1 (minZ (.node lc ll lv lr)).2.2.2)
          (minZ (.node lc ll lv lr)).2.1 ny
        ∧ PathBal ((minZ (.node lc ll lv lr)).1 ++ ⟨c, v, r, .L⟩ :: rest) ny m
        ∧ (headC ((minZ (.node lc ll lv lr)).1 ++ ⟨c, v, r, .L⟩ :: rest) = .red →
            (minZ (.node lc ll lv lr)).2.1 = .black)
        ∧ rootedOK ((minZ (.node lc ll lv lr)).1 ++ ⟨c, v, r, .L⟩ :: rest)
        ∧ (minZ (.node lc ll lv lr)).1 ++ ⟨c, v, r, .L⟩ :: rest ≠ [] := by
      cases ht with
      | redB hl hr =>
        have hhead : headC rest = .black := by
          cases hh : headC rest with
          | black => rfl
          | red => exact absurd (hcompat hh) (by simp)
        exact key hl (.redL v r hr hp hhead hne) (fun _ => rfl)
      | blackB hl hr =>
        exact key hl (.blackL v r hr hp) (fun hh => by simp [headC] at hh)
    obtain ⟨ny, h1, h2, h3, h4, h5⟩ := hmain
    refine ⟨ny, ?_, ?_, ?_, ?_, ?_⟩ <;>
      simp only [minZ, List.append_assoc, List.cons_append, List.nil_append] <;>
      first
        | exact h1
        | exact h2
        | exact h3
        | exact h4
        | exact h5

theorem delCase34L_bal : ∀ (x : Tree) (pc : Color) (pv : Int) (w : Tree) (rest : Path)
    {n m : Nat}, Bal x .black n → Bal w .black (n + 1) →
    ¬(colorOf (leftT w) = .black ∧ colorOf (rightT w) = .black) →
    PathBal rest (n + 1 + (if pc = .black then 1 else 0)) m →
    (headC rest = .red → pc = .black) →
    ∃ m', Bal (delCase34L x pc pv w rest) .black m' := by
  intro x pc pv w rest n m hx hw hnb hp hcompat
  cases hw with
  | blackB hwl hwr =>
    rename_i wl wr wv cwl cwr
    rw [delCase34L.eq_def]
    simp only []
    by_cases hr : colorOf wr = .black
    · have hcwl : cwl = .red := by
        cases cwl with
        | red => rfl
        | black =>
          exact absurd ⟨by simp only [leftT]; exact bal_colorOf hwl,
            by simp only [rightT]; exact hr⟩ hnb
      subst hcwl
      cases hwl with
      | redB ha hb =>
        rename_i a b av
        rw [if_pos hr]
        have hlocal1 : Bal (.node .black x pv a) .black (n + 1) := .blackB hx ha
        have hlocal2 : Bal (.node .black b wv wr) .black (n + 1) := .blackB hb hwr
        cases pc with
        | red =>
          have hloc : Bal (.node .red (.node .black x pv a) av (.node .black b wv wr)) .red (n + 1) :=
            .redB hlocal1 hlocal2
          have hp' : PathBal rest (n + 1) m := by simpa using hp
          obtain ⟨c', hc'⟩ := plug_balE hp' hloc (fun hh => absurd (hcompat hh) (by simp))
          exact blackenRoot_bal hc'
        | black =>
          have hloc : Bal (.node .black (.node .black x pv a) av (.node .black b wv wr))
              .black (n + 2) := .blackB hlocal1 hlocal2
          have hp' : PathBal rest (n + 2) m := by simpa using hp
          obtain ⟨c', hc'⟩ := plug_balE hp' hloc (fun _ => rfl)
          exact blackenRoot_bal hc'
    · rw [if_neg hr]
      have hcwr : cwr = .red := by
        cases cwr with
        | red => rfl
        | black => exact absurd (bal_colorOf hwr) hr
      subst hcwr
      have hwr' : Bal (setColor wr .black) .black (n + 1) := bal_setBlack_of_red hwr
      have hlocal1 : Bal (.node .black x pv wl) .black (n + 1) := .blackB hx hwl
      cases pc with
      | red =>
        have hloc : Bal (.node .red (.node .black x pv wl) wv (setColor wr .black)) .red (n + 1) :=
          .redB hlocal1 hwr'
        have hp' : PathBal rest (n + 1) m := by simpa using hp
        obtain ⟨c', hc'⟩ := plug_balE hp' hloc (fun hh => absurd (hcompat hh) (by simp))
        exact blackenRoot_bal hc'
      | black =>
        have hloc : Bal (.node .black (.node .black x pv wl) wv (setColor wr .black))
            .black (n + 2) := .blackB hlocal1 hwr'
        have hp' : PathBal rest (n + 2) m := by simpa using hp
        obtain ⟨c', hc'⟩ := plug_balE hp' hloc (fun _ => rfl)
        exact blackenRoot_bal hc'

theorem delCase34R_bal : ∀ (x : Tree) (pc : Color) (pv : Int) (w : Tree) (rest : Path)
    {n m : Nat}, Bal x .black n → Bal w .black (n + 1) →
    ¬(colorOf (leftT w) = .black ∧ colorOf (rightT w) = .black) →
    PathBal rest (n + 1 + (if pc = .black then 1 else 0)) m →
    (headC rest = .red → pc = .black) →
    ∃ m', Bal (delCase34R x pc pv w rest) .black m' := by
  intro x pc pv w rest n m hx hw hnb hp hcompat
  cases hw with
  | blackB hwl hwr =>
    rename_i wl wr wv cwl cwr
    rw [delCase34R.eq_def]
    simp only []
    by_cases hl : colorOf wl = .black
    · have hcwr : cwr = .red := by
        cases cwr with
        | red => rfl
        | black =>
          exact absurd ⟨by simp only [leftT]; exact hl,
            by simp only [rightT]; exact bal_colorOf hwr⟩ hnb
      subst hcwr
      cases hwr with
      | redB ha hb =>
        rename_i a b av
        rw [if_pos hl]
        have hlocal1 : Bal (.node .black wl wv a) .black (n + 1) := .blackB hwl ha
        have hlocal2 : Bal (.node .black b pv x) .black (n + 1) := .blackB hb hx
        cases pc with
        | red =>
          have hloc : Bal (.node .red (.node .black wl wv a) av (.node .black b pv x)) .red (n + 1) :=
            .redB hlocal1 hlocal2
          have hp' : PathBal rest (n + 1) m := by simpa using hp
          obtain ⟨c', hc'⟩ := plug_balE hp' hloc (fun hh => absurd (hcompat hh) (by simp))
          exact blackenRoot_bal hc'
        | black =>
          have hloc : Bal (.node .black (.node .black wl wv a) av (.node .black b pv x))
              .black (n + 2) := .blackB hlocal1 hlocal2
          have hp' : PathBal rest (n + 2) m := by simpa using hp
          obtain ⟨c', hc'⟩ := plug_balE hp' hloc (fun _ => rfl)
          exact blackenRoot_bal hc'
    · rw [if_neg hl]
      have hcwl : cwl = .red := by
        cases cwl with
        | red => rfl
        | black => exact absurd (bal_colorOf hwl) hl
      subst hcwl
      have hwl' : Bal (setColor wl .black) .black (n + 1) := bal_setBlack_of_red hwl
      have hlocal2 : Bal (.node .black wr pv x) .black (n + 1) := .blackB hwr hx
      cases pc with
      | red =>
        have hloc : Bal (.node .red (setColor wl .black) wv (.node .black wr pv x)) .red (n + 1) :=
          .redB hwl' hlocal2
        have hp' : PathBal rest (n + 1) m := by simpa using hp
        obtain ⟨c', hc'⟩ := plug_balE hp' hloc (fun hh => absurd (hcompat hh) (by simp))
        exact blackenRoot_bal hc'
      | black =>
        have hloc : Bal (.node .black (setColor wl .black) wv (.node .black wr pv x))
            .black (n + 2) := .blackB hwl' hlocal2
        have hp' : PathBal rest (n + 2) m := by simpa using hp
        obtain ⟨c', hc'⟩ := plug_balE hp' hloc (fun _ => rfl)
        exact blackenRoot_bal hc'

theorem delFixup_bal : ∀ (p : Path) (x : Tree) (n m : Nat),
    BalX x n → PathBal p (n + 1) m → rootedOK p →
    (∃ m', Bal (delFixup x p).1 .black m')
    ∧ (∀ s ∈ (delFixup x p).2, s = SWrite.colorW .black) := by
  intro p
  induction p with
  | nil =>
    intro x n m hx hp hroot
    rw [delFixup]
    constructor
    · cases hx with
      | ofBal h => exact blackenRoot_bal h
      | redX hl hr => exact ⟨_, .blackB hl hr⟩
    · intro s hs
      by_cases hxn : x = .nil
      · simp [hxn] at hs; simp [hs]
      · simp [hxn] at hs
  | cons f p ih =>
    obtain ⟨pc, pv, w, fd⟩ := f
    intro x n m hx hp hroot
    cases fd
    case L =>
      rw [delFixup.eq_def]
      simp only []
      by_cases hred : colorOf x = .red
      · rw [if_pos hred]; dsimp only
        obtain ⟨z1, v0, z2, c1, c2, rfl, h1, h2⟩ := balX_red hx hred
        refine ⟨⟨m, plug_balBlack hp ?_ (fun _ => rfl) hroot (by simp)⟩, by simp⟩
        exact (Bal.blackB h1 h2 : Bal (.node .black z1 v0 z2) .black (n + 1))
      · rw [if_neg hred]
        have hcx : colorOf x = .black := by
          cases hc2 : colorOf x with
          | red => exact absurd hc2 hred
          | black => rfl
        have hxb : Bal x .black n := balX_black hx hcx
        cases hp with
        | blackL _ _ how hp2 =>
          rename_i cw
          cases w with
          | nil => cases how
          | node wc wl wv wr =>
            cases wc with
            | red =>
              cases how with
              | redB hwl hwr =>
                cases hwl with
                | blackB ha hb =>
                  rename_i a b av ca cb
                  simp only []
                  by_cases h2 : colorOf (leftT (Tree.node .black a av b)) = .black
                      ∧ colorOf (rightT (Tree.node .black a av b)) = .black
                  · rw [if_pos h2]
                    have hca : ca = .black := by
                      rw [← bal_colorOf ha]
                      simpa [leftT] using h2.1
                    have hcb : cb = .black := by
                      rw [← bal_colorOf hb]
                      simpa [rightT] using h2.2
                    subst hca; subst hcb
                    have hinner : Bal (setColor (.node .black a av b) .red) .red n :=
                      .redB ha hb
                    have hlocal : Bal (.node .black x pv (setColor (.node .black a av b) .red))
                        .black (n + 1) := .blackB hxb hinner
                    refine ⟨⟨m, plug_balBlack (.blackL wv wr hwr hp2) hlocal
                      (fun _ => rfl) (rootedOK_cons _ _ (fun _ => rfl)
                        (rootedOK_tail _ _ hroot)) (by simp)⟩, by simp⟩
                  · rw [if_neg h2]
                    refine ⟨delCase34L_bal x .red pv (.node .black a av b)
                      (⟨.black, wv, wr, .L⟩ :: p) hxb (.blackB ha hb) h2
                      (by simpa using PathBal.blackL wv wr hwr hp2)
                      (fun hh => by simp [headC] at hh), by simp⟩
            | black =>
              cases how with
              | blackB hwl hwr =>
                rename_i cwl cwr
                simp only []
                by_cases h2 : colorOf (leftT (Tree.node .black wl wv wr)) = .black
                    ∧ colorOf (rightT (Tree.node .black wl wv wr)) = .black
                · rw [if_pos h2]
                  have hcwl : cwl = .black := by
                    rw [← bal_colorOf hwl]
                    simpa [leftT] using h2.1
                  have hcwr : cwr = .black := by
                    rw [← bal_colorOf hwr]
                    simpa [rightT] using h2.2
                  subst hcwl; subst hcwr
                  have hw' : Bal (setColor (.node .black wl wv wr) .red) .red n :=
                    .redB hwl hwr
                  have hx' : BalX (.node .black x pv (setColor (.node .black wl wv wr) .red))
                      (n + 1) := .ofBal (.blackB hxb hw')
                  obtain ⟨hres, hlog⟩ := ih _ (n + 1) m hx' hp2 (rootedOK_tail _ _ hroot)
                  exact ⟨hres, by simpa using hlog⟩
                · rw [if_neg h2]
                  refine ⟨delCase34L_bal x .black pv (.node .black wl wv wr) p hxb
                    (.blackB hwl hwr) h2 (by simpa using hp2) (fun _ => rfl), by simp⟩
        | redL _ _ how hp2 hh hne =>
          cases how with
          | blackB hwl hwr =>
            rename_i wl wr wv cwl cwr
            simp only []
            by_cases h2 : colorOf (leftT (Tree.node .black wl wv wr)) = .black
                ∧ colorOf (rightT (Tree.node .black wl wv wr)) = .black
            · rw [if_pos h2]
              have hcwl : cwl = .black := by
                rw [← bal_colorOf hwl]
                simpa [leftT] using h2.1
              have hcwr : cwr = .black := by
                rw [← bal_colorOf hwr]
                simpa [rightT] using h2.2
              subst hcwl; subst hcwr
              have hw' : Bal (setColor (.node .black wl wv wr) .red) .red n :=
                .redB hwl hwr
              have hx' : BalX (.node .red x pv (setColor (.node .black wl wv wr) .red)) n :=
                .redX hxb hw'
              obtain ⟨hres, hlog⟩ := ih _ n m hx' hp2 (rootedOK_tail _ _ hroot)
              exact ⟨hres, by simpa using hlog⟩
            · rw [if_neg h2]
              refine ⟨delCase34L_bal x .red pv (.node .black wl wv wr) p hxb
                (.blackB hwl hwr) h2 (by simpa using hp2)
                (fun hc => absurd (hh.symm.trans hc) (by simp)), by simp⟩
    case R =>
      rw [delFixup.eq_def]
      simp only []
      by_cases hred : colorOf x = .red
      · rw [if_pos hred]; dsimp only
        obtain ⟨z1, v0, z2, c1, c2, rfl, h1, h2⟩ := balX_red hx hred
        refine ⟨⟨m, plug_balBlack hp ?_ (fun _ => rfl) hroot (by simp)⟩, by simp⟩
        exact (Bal.blackB h1 h2 : Bal (.node .black z1 v0 z2) .black (n + 1))
      · rw [if_neg hred]
        have hcx : colorOf x = .black := by
          cases hc2 : colorOf x with
          | red => exact absurd hc2 hred
          | black => rfl
        have hxb : Bal x .black n := balX_black hx hcx
        cases hp with
        | blackR _ _ how hp2 =>
          rename_i cw
          cases w with
          | nil => cases how
          | node wc wl wv wr =>
            cases wc with
            | red =>
              cases how with
              | redB hwl hwr =>
                cases hwr with
                | blackB ha hb =>
                  rename_i a b av ca cb
                  simp only []
                  by_cases h2 : colorOf (leftT (Tree.node .black a av b)) = .black
                      ∧ colorOf (rightT (Tree.node .black a av b)) = .black
                  · rw [if_pos h2]
                    have hca : ca = .black := by
                      rw [← bal_colorOf ha]
                      simpa [leftT] using h2.1
                    have hcb : cb = .black := by
                      rw [← bal_colorOf hb]
                      simpa [rightT] using h2.2
                    subst hca; subst hcb
                    have hinner : Bal (setColor (.node .black a av b) .red) .red n :=
                      .redB ha hb
                    have hlocal : Bal (.node .black (setColor (.node .black a av b) .red) pv x)
                        .black (n + 1) := .blackB hinner hxb
                    refine ⟨⟨m, plug_balBlack (.blackR wv wl hwl hp2) hlocal
                      (fun _ => rfl) (rootedOK_cons _ _ (fun _ => rfl)
                        (rootedOK_tail _ _ hroot)) (by simp)⟩, by simp⟩
                  · rw [if_neg h2]
                    refine ⟨delCase34R_bal x .red pv (.node .black a av b)
                      (⟨.black, wv, wl, .R⟩ :: p) hxb (.blackB ha hb) h2
                      (by simpa using PathBal.blackR wv wl hwl hp2)
                      (fun hh => by simp [headC] at hh), by simp⟩
            | black =>
              cases how with
              | blackB hwl hwr =>
                rename_i cwl cwr
                simp only []
                by_cases h2 : colorOf (leftT (Tree.node .black wl wv wr)) = .black
                    ∧ colorOf (rightT (Tree.node .black wl wv wr)) = .black
                · rw [if_pos h2]
                  have hcwl : cwl = .black := by
                    rw [← bal_colorOf hwl]
                    simpa [leftT] using h2.1
                  have hcwr : cwr = .black := by
                    rw [← bal_colorOf hwr]
                    simpa [rightT] using h2.2
                  subst hcwl; subst hcwr
                  have hw' : Bal (setColor (.node .black wl wv wr) .red) .red n :=
                    .redB hwl hwr
                  have hx' : BalX (.node .black (setColor (.node .black wl wv wr) .red) pv x)
                      (n + 1) := .ofBal (.blackB hw' hxb)
                  obtain ⟨hres, hlog⟩ := ih _ (n + 1) m hx' hp2 (rootedOK_tail _ _ hroot)
                  exact ⟨hres, by simpa using hlog⟩
                · rw [if_neg h2]
                  refine ⟨delCase34R_bal x .black pv (.node .black wl wv wr) p hxb
                    (.blackB hwl hwr) h2 (by simpa using hp2) (fun _ => rfl), by simp⟩
        | redR _ _ how hp2 hh hne =>
          cases how with
          | blackB hwl hwr =>
            rename_i wl wr wv cwl cwr
            simp only []
            by_cases h2 : colorOf (leftT (Tree.node .black wl wv wr)) = .black
                ∧ colorOf (rightT (Tree.node .black wl wv wr)) = .black
            · rw [if_pos h2]
              have hcwl : cwl = .black := by
                rw [← bal_colorOf hwl]
                simpa [leftT] using h2.1
              have hcwr : cwr = .black := by
                rw [← bal_colorOf hwr]
                simpa [rightT] using h2.2
              subst hcwl; subst hcwr
              have hw' : Bal (setColor (.node .black wl wv wr) .red) .red n :=
                .redB hwl hwr
              have hx' : BalX (.node .red (setColor (.node .black wl wv wr) .red) pv x) n :=
                .redX hw' hxb
              obtain ⟨hres, hlog⟩ := ih _ n m hx' hp2 (rootedOK_tail _ _ hroot)
              exact ⟨hres, by simpa using hlog⟩
            · rw [if_neg h2]
              refine ⟨delCase34R_bal x .red pv (.node .black wl wv wr) p hxb
                (.blackB hwl hwr) h2 (by simpa using hp2)
                (fun hc => absurd (hh.symm.trans hc) (by simp)), by simp⟩

theorem rbDelete_ok (T : RBTree) (k : Int) {N : Nat} (h : Bal T.root .black N) :
    (∃ N', Bal (rbDelete T k).2.1.root .black N')
    ∧ (∀ s ∈ (rbDelete T k).2.2, (∃ q, s = SWrite.parentW q) ∨ s = SWrite.colorW .black) := by
  rw [rbDelete.eq_def]
  cases hf : findZ T.root k [] with
  | none => exact ⟨⟨N, h⟩, by simp⟩
  | some res =>
    obtain ⟨p, zc, zl, zv, zr⟩ := res
    obtain ⟨nz, hz, hp, hcompat, hne, hroot, h0⟩ :=
      findZ_pathbal T.root k [] h .top (by simp [headC]) (fun hc => by simp at hc)
        trivial (fun _ => rfl) hf
    cases zl with
    | nil =>
      simp only []
      cases hz with
      | blackB h1 h2 =>
        cases h1
        rw [if_pos rfl]
        obtain ⟨hbal, hlog⟩ := delFixup_bal p zr 0 N (.ofBal h2) hp hroot
        refine ⟨hbal, ?_⟩
        intro s hs
        simp only [List.mem_append] at hs
        rcases hs with hs | hs
        · by_cases hzr : zr = .nil
          · simp [hzr] at hs
            exact Or.inl ⟨_, hs⟩
          · simp [hzr] at hs
        · exact Or.inr (hlog s hs)
      | redB h1 h2 =>
        cases h1
        rw [if_neg (by simp)]
        refine ⟨⟨_, plug_balBlack hp h2 (fun _ => rfl) hroot (fun _ => rfl)⟩, ?_⟩
        intro s hs
        by_cases hzr : zr = .nil
        · simp [hzr] at hs
          exact Or.inl ⟨_, hs⟩
        · simp [hzr] at hs
    | node lc ll lv lr =>
      cases zr with
      | nil =>
        simp only []
        cases hz with
        | blackB h1 h2 =>
          cases h2
          rw [if_pos rfl]
          obtain ⟨hbal, hlog⟩ := delFixup_bal p _ 0 N (.ofBal h1) hp hroot
          exact ⟨hbal, fun s hs => Or.inr (hlog s hs)⟩
        | redB h1 h2 =>
          cases h2
          cases h1
      | node rc rl rv rr =>
        simp only []
        cases hz with
        | blackB h1 h2 =>
          rename_i n0 cl' czr
          have hrest : PathBal (⟨.black, (minZ (.node rc rl rv rr)).2.2.1,
              .node lc ll lv lr, .R⟩ :: p) n0 N := .blackR _ _ h1 hp
          obtain ⟨ny, hy, hpc, hcompat2, hroot2, hne2⟩ :=
            minZ_bal (.node rc rl rv rr) h2 (by simp) _ hrest
              (fun hh => by simp [headC] at hh)
              (rootedOK_cons _ _ (fun _ => rfl) hroot) (by simp)
          by_cases hyc : (minZ (.node rc rl rv rr)).2.1 = .black
          · rw [if_pos hyc]
            rw [hyc] at hy
            cases hy with
            | blackB hy1 hy2 =>
              cases hy1
              obtain ⟨hbal, hlog⟩ := delFixup_bal _ _ 0 N (.ofBal hy2) hpc hroot2
              refine ⟨hbal, ?_⟩
              intro s hs
              simp only [List.mem_append] at hs
              rcases hs with hs | hs
              · by_cases hyr : (minZ (.node rc rl rv rr)).2.2.2 = .nil
                · simp [hyr] at hs
                  exact Or.inl ⟨_, hs⟩
                · simp [hyr] at hs
              · exact Or.inr (hlog s hs)
          · rw [if_neg hyc]
            have hycr : (minZ (.node rc rl rv rr)).2.1 = .red := by
              cases hcc : (minZ (.node rc rl rv rr)).2.1 with
              | red => rfl
              | black => exact absurd hcc hyc
            rw [hycr] at hy
            cases hy with
            | redB hy1 hy2 =>
              cases hy1
              refine ⟨⟨_, plug_balBlack hpc hy2 (fun _ => rfl) hroot2 (fun _ => rfl)⟩, ?_⟩
              intro s hs
              by_cases hyr : (minZ (.node rc rl rv rr)).2.2.2 = .nil
              · simp [hyr] at hs
                exact Or.inl ⟨_, hs⟩
              · simp [hyr] at hs
        | redB h1 h2 =>
          have hh2 : headC p = .black := by
            cases hh : headC p with
            | black => rfl
            | red => exact absurd (hcompat hh) (by simp)
          have hrest : PathBal (⟨.red, (minZ (.node rc rl rv rr)).2.2.1,
              .node lc ll lv lr, .R⟩ :: p) nz N := .redR _ _ h1 hp hh2 (hne rfl)
          obtain ⟨ny, hy, hpc, hcompat2, hroot2, hne2⟩ :=
            minZ_bal (.node rc rl rv rr) h2 (by simp) _ hrest
              (fun _ => rfl)
              (rootedOK_cons _ _ (fun he => absurd he (hne rfl)) hroot) (by simp)
          by_cases hyc : (minZ (.node rc rl rv rr)).2.1 = .black
          · rw [if_pos hyc]
            rw [hyc] at hy
            cases hy with
            | blackB hy1 hy2 =>
              cases hy1
              obtain ⟨hbal, hlog⟩ := delFixup_bal _ _ 0 N (.ofBal hy2) hpc hroot2
              refine ⟨hbal, ?_⟩
              intro s hs
              simp only [List.mem_append] at hs
              rcases hs with hs | hs
              · by_cases hyr : (minZ (.node rc rl rv rr)).2.2.2 = .nil
                · simp [hyr] at hs
                  exact Or.inl ⟨_, hs⟩
                · simp [hyr] at hs
              · exact Or.inr (hlog s hs)
          · rw [if_neg hyc]
            have hycr : (minZ (.node rc rl rv rr)).2.1 = .red := by
              cases hcc : (minZ (.node rc rl rv rr)).2.1 with
              | red => rfl
              | black => exact absurd hcc hyc
            rw [hycr] at hy
            cases hy with
            | redB hy1 hy2 =>
              cases hy1
              refine ⟨⟨_, plug_balBlack hpc hy2 (fun _ => rfl) hroot2 (fun _ => rfl)⟩, ?_⟩
              intro s hs
              by_cases hyr : (minZ (.node rc rl rv rr)).2.2.2 = .nil
              · simp [hyr] at hs
                exact Or.inl ⟨_, hs⟩
              · simp [hyr] at hs

/-! ### Order and size preservation; the reachability invariant -/

theorem rbInsert_bstb_size (T : RBTree) (k : Int)
    (hb : BSTB none T.root none) (hs : T.size = numNodes T.root) :
    BSTB none (rbInsert T k).2.root none
    ∧ (rbInsert T k).2.size = numNodes (rbInsert T k).2.root := by
  rw [rbInsert]
  cases hd : insDescend T.root k [] with
  | none => exact ⟨hb, hs⟩
  | some p' =>
    simp only []
    have hplug : plug .nil p' = T.root := insDescend_plug T.root k [] p' hd
    obtain ⟨lo', hi', hz, hk1, hk2⟩ := insDescend_zbst T.root k [] hb .top trivial trivial hd
    have hbstb : BSTB none (plug (.node .red .nil k .nil) p') none :=
      plug_zbst hz ⟨hk1, hk2, trivial, trivial⟩
    have hio : inorder (blackenRoot (insFixup (.node .red .nil k .nil) p'))
        = inorder (plug (.node .red .nil k .nil) p') := by
      rw [inorder_blackenRoot, insFixup_inorder]
    constructor
    · rw [bstb_none_iff] at hbstb ⊢
      simpa [hio] using hbstb
    · show T.size + 1 = numNodes (blackenRoot (insFixup (.node .red .nil k .nil) p'))
      have h1 : numNodes (blackenRoot (insFixup (.node .red .nil k .nil) p'))
          = (inorder (plug (.node .red .nil k .nil) p')).length := by
        rw [numNodes_eq_length, hio]
      have h2 : numNodes T.root = (inorder (plug (.nil : Tree) p')).length := by
        rw [numNodes_eq_length, hplug]
      have e1 : (inorder (plug (.node .red .nil k .nil) p')).length
          = (leftL p').length + (1 + (rightL p').length) := by
        simp [inorder_plug, inorder]
        omega
      have e2 : (inorder (plug (.nil : Tree) p')).length
          = (leftL p').length + (rightL p').length := by
        simp [inorder_plug, inorder]
      rw [h1, e1, hs, h2, e2]
      omega

theorem rbDelete_bstb_size (T : RBTree) (k : Int)
    (hb : BSTB none T.root none) (hs : T.size = numNodes T.root) :
    BSTB none (rbDelete T k).2.1.root none
    ∧ (rbDelete T k).2.1.size = numNodes (rbDelete T k).2.1.root := by
  rw [rbDelete.eq_def]
  cases hf : findZ T.root k [] with
  | none => exact ⟨hb, hs⟩
  | some res =>
    obtain ⟨p, zc, zl, zv, zr⟩ := res
    obtain ⟨hzv, lo', hi', hz, hzb⟩ := findZ_zbst T.root k [] hb .top trivial trivial hf
    have hplug : plug (.node zc zl zv zr) p = T.root := findZ_plug T.root k [] hf
    obtain ⟨hlo, hhi, hbl, hbr⟩ := hzb
    have hlenold : T.size
        = (leftL p).length + ((inorder zl).length + 1 + (inorder zr).length)
          + (rightL p).length := by
      rw [hs, numNodes_eq_length, ← hplug]
      simp [inorder_plug, inorder]
      omega
    cases zl with
    | nil =>
      simp only []
      have hzrb : BSTB lo' zr hi' :=
        bstb_weaken zr hbr (fun x hx => lbO_lt hlo hx) (fun x hx => hx)
      have hplugb : BSTB none (plug zr p) none := plug_zbst hz hzrb
      have hlen : (inorder (plug zr p)).length
          = (leftL p).length + ((inorder zr).length + (rightL p).length) := by
        simp [inorder_plug]
      by_cases hzc : zc = Color.black
      · rw [if_pos hzc]
        constructor
        · show BSTB none (delFixup zr p).1 none
          rw [bstb_none_iff] at hplugb ⊢
          rw [show inorder (delFixup zr p).1 = inorder (plug zr p) from delFixup_inorder zr p]
          exact hplugb
        · show T.size - 1 = numNodes (delFixup zr p).1
          rw [numNodes_eq_length,
            show inorder (delFixup zr p).1 = inorder (plug zr p) from delFixup_inorder zr p,
            hlen, hlenold]
          simp [inorder]
          omega
      · rw [if_neg hzc]
        constructor
        · exact hplugb
        · show T.size - 1 = numNodes (plug zr p)
          rw [numNodes_eq_length, hlen, hlenold]
          simp [inorder]
          omega
    | node lc ll lv lr =>
      cases zr with
      | nil =>
        simp only []
        have hzlb : BSTB lo' (.node lc ll lv lr) hi' :=
          bstb_weaken _ hbl (fun x hx => hx) (fun x hx => ubO_gt hhi hx)
        have hplugb : BSTB none (plug (.node lc ll lv lr) p) none := plug_zbst hz hzlb
        have hlen : (inorder (plug (.node lc ll lv lr) p)).length
            = (leftL p).length + ((inorder (Tree.node lc ll lv lr)).length
              + (rightL p).length) := by
          simp [inorder_plug]
        by_cases hzc : zc = Color.black
        · rw [if_pos hzc]
          constructor
          · show BSTB none (delFixup (.node lc ll lv lr) p).1 none
            rw [bstb_none_iff] at hplugb ⊢
            rw [show inorder (delFixup (.node lc ll lv lr) p).1
                = inorder (plug (.node lc ll lv lr) p) from delFixup_inorder _ p]
            exact hplugb
          · show T.size - 1 = numNodes (delFixup (.node lc ll lv lr) p).1
            rw [numNodes_eq_length,
              show inorder (delFixup (.node lc ll lv lr) p).1
                = inorder (plug (.node lc ll lv lr) p) from delFixup_inorder _ p,
              hlen, hlenold]
            simp [inorder]
            omega
        · rw [if_neg hzc]
          constructor
          · exact hplugb
          · show T.size - 1 = numNodes (plug (.node lc ll lv lr) p)
            rw [numNodes_eq_length, hlen, hlenold]
            simp [inorder]
            omega
      | node rc rl rv rr =>
        simp only []
        obtain ⟨hyv1, hyv2, hfun⟩ := minZ_zbst (.node rc rl rv rr) hbr (by simp)
        have hyvlt : zv < (minZ (.node rc rl rv rr)).2.2.1 := hyv1
        have hrest : ZBST (⟨zc, (minZ (.node rc rl rv rr)).2.2.1, .node lc ll lv lr, .R⟩ :: p)
            (some (minZ (.node rc rl rv rr)).2.2.1) hi' := by
          refine ZBST.Rf _ _ _ hz (lbO_lt hlo hyvlt) hyv2 ?_
          exact bstb_weaken _ hbl (fun x hx => hx) (fun x hx => ubO_gt hyvlt hx)
        obtain ⟨hi2, hzc2, hyrb⟩ := hfun _ hrest
        have hplugb : BSTB none
            (plug (minZ (.node rc rl rv rr)).2.2.2
              ((minZ (.node rc rl rv rr)).1
                ++ ⟨zc, (minZ (.node rc rl rv rr)).2.2.1, .node lc ll lv lr, .R⟩ :: p)) none :=
          plug_zbst hzc2 hyrb
        have hminplug := minZ_plug rl rc rv rr
        have hlenzr : (inorder rl).length + 1 + (inorder rr).length
            = (leftL (minZ (.node rc rl rv rr)).1).length + 1
              + ((inorder (minZ (.node rc rl rv rr)).2.2.2).length
              + (rightL (minZ (.node rc rl rv rr)).1).length) := by
          have hh := congrArg (fun t => (inorder t).length) hminplug
          simp [inorder_plug, inorder] at hh
          omega
        have hlennew : (inorder (plug (minZ (.node rc rl rv rr)).2.2.2
            ((minZ (.node rc rl rv rr)).1
              ++ ⟨zc, (minZ (.node rc rl rv rr)).2.2.1, .node lc ll lv lr, .R⟩ :: p))).length
            + 1
            = (leftL p).length + ((inorder (Tree.node lc ll lv lr)).length + 1
                + (inorder (Tree.node rc rl rv rr)).length) + (rightL p).length := by
          rw [plug_append]
          simp only [plug]
          simp [inorder_plug, inorder]
          omega
        by_cases hyc : (minZ (.node rc rl rv rr)).2.1 = Color.black
        · rw [if_pos hyc]
          constructor
          · show BSTB none (delFixup (minZ (.node rc rl rv rr)).2.2.2
              ((minZ (.node rc rl rv rr)).1
                ++ ⟨zc, (minZ (.node rc rl rv rr)).2.2.1, .node lc ll lv lr, .R⟩ :: p)).1 none
            rw [bstb_none_iff] at hplugb ⊢
            rw [delFixup_inorder]
            exact hplugb
          · show T.size - 1 = numNodes (delFixup (minZ (.node rc rl rv rr)).2.2.2
              ((minZ (.node rc rl rv rr)).1
                ++ ⟨zc, (minZ (.node rc rl rv rr)).2.2.1, .node lc ll lv lr, .R⟩ :: p)).1
            rw [numNodes_eq_length, delFixup_inorder, hlenold, ← hlennew]
            omega
        · rw [if_neg hyc]
          constructor
          · exact hplugb
          · show T.size - 1 = numNodes (plug (minZ (.node rc rl rv rr)).2.2.2
              ((minZ (.node rc rl rv rr)).1
                ++ ⟨zc, (minZ (.node rc rl rv rr)).2.2.1, .node lc ll lv lr, .R⟩ :: p))
            rw [numNodes_eq_length, hlenold, ← hlennew]
            omega

/-- The full invariant maintained by every reachable tree: balanced
black-rooted coloring, search-tree order, and an accurate size field. -/
def InvT (T : RBTree) : Prop :=
  (∃ n, Bal T.root .black n) ∧ BSTB none T.root none ∧ T.size = numNodes T.root

theorem reachable_inv {T : RBTree} (h : Reachable T) : InvT T := by
  induction h with
  | create => exact ⟨⟨0, .nilB⟩, trivial, rfl⟩
  | ins t k ht ih =>
    obtain ⟨⟨n, hbal⟩, hb, hsz⟩ := ih
    obtain ⟨hb', hs'⟩ := rbInsert_bstb_size t k hb hsz
    exact ⟨rbInsert_bal t k hbal, hb', hs'⟩
  | del t k ht ih =>
    obtain ⟨⟨n, hbal⟩, hb, hsz⟩ := ih
    obtain ⟨hb', hs'⟩ := rbDelete_bstb_size t k hb hsz
    exact ⟨(rbDelete_ok t k hbal).1, hb', hs'⟩

/-! ### Bridges to the C validity check, height, and range count -/

theorem bal_isValidNode {t : Tree} {c : Color} {n : Nat} (h : Bal t c n) :
    isValidNode t = some (n + 1) := by
  induction h with
  | nilB => rfl
  | redB hl hr ihl ihr =>
    have h1 := bal_colorOf hl
    have h2 := bal_colorOf hr
    simp [isValidNode, h1, h2, ihl, ihr]
  | blackB hl hr ihl ihr =>
    simp [isValidNode, ihl, ihr]

theorem bal_height : ∀ {t : Tree} {c : Color} {n : Nat}, Bal t c n →
    heightN t ≤ 2 * n + (if c = .red then 1 else 0) := by
  intro t c n h
  induction h with
  | nilB => simp [heightN]
  | redB hl hr ihl ihr =>
    simp [heightN] at *
    omega
  | blackB hl hr ihl ihr =>
    simp [heightN] at *
    split_ifs at ihl ihr <;> omega

theorem bal_size_lb : ∀ {t : Tree} {c : Color} {n : Nat}, Bal t c n →
    2 ^ n ≤ numNodes t + 1 := by
  intro t c n h
  induction h with
  | nilB => simp
  | redB hl hr ihl ihr => simp [numNodes] at *; omega
  | blackB hl hr ihl ihr =>
    rename_i l0 r0 v0 n0 cl0 cr0
    have hp : 2 ^ (n0 + 1) = 2 ^ n0 + 2 ^ n0 := by rw [pow_succ]; omega
    simp [numNodes] at *
    omega

theorem countRange_spec : ∀ (t : Tree) {lo hi : Option Int} (a b : Int), BSTB lo t hi →
    a ≤ b →
    ((inorder t).filter (fun v => decide (a ≤ v ∧ v ≤ b))).length ≤ countRangeNodes t a b
    ∧ (((inorder t).filter (fun v => decide (a ≤ v ∧ v ≤ b))).length = 0 →
        countRangeNodes t a b = 0)
  | .nil, lo, hi, a, b, _, _ => by simp [inorder, countRangeNodes]
  | .node c l v r, lo, hi, a, b, hB, hab => by
    obtain ⟨h1, h2, h3, h4⟩ := hB
    obtain ⟨ihl1, ihl0⟩ := countRange_spec l a b h3 hab
    obtain ⟨ihr1, ihr0⟩ := countRange_spec r a b h4 hab
    rw [countRangeNodes]
    simp only [inorder, List.filter_append, List.filter_cons, List.length_append]
    by_cases hin : a ≤ v ∧ v ≤ b
    · have hd : decide (a ≤ v ∧ v ≤ b) = true := by simp [hin]
      rw [if_pos hin, if_pos hin]
      simp only [hd, if_true, List.length_cons]
      constructor
      · split_ifs <;> omega
      · intro hc; omega
    · have hd : decide (a ≤ v ∧ v ≤ b) = false := by simp [hin]
      rw [if_neg hin, if_neg hin]
      simp only [hd, Bool.false_eq_true, if_false]
      by_cases hva : v < a
      · have hfl : (inorder l).filter (fun x => decide (a ≤ x ∧ x ≤ b)) = [] := by
          rw [List.filter_eq_nil_iff]
          intro x hx
          have hxv : x < v := (bstb_mem l h3 x hx).2
          simp only [decide_eq_true_eq]
          omega
        rw [if_neg (by omega), if_pos (by omega), hfl]
        simp only [List.length_nil]
        constructor
        · omega
        · intro hc
          rw [ihr0 (by omega)]
      · have hbv : b < v := by omega
        have hfr : (inorder r).filter (fun x => decide (a ≤ x ∧ x ≤ b)) = [] := by
          rw [List.filter_eq_nil_iff]
          intro x hx
          have hxv : v < x := (bstb_mem r h4 x hx).1
          simp only [decide_eq_true_eq]
          omega
        rw [if_pos (by omega), if_neg (by omega), hfr]
        simp only [List.length_nil]
        constructor
        · omega
        · intro hc
          rw [ihl0 (by omega)]

/-! ### Concrete reachable trees used by witnesses and counterexamples -/

/-- The tree obtained by inserting 2, then 1, then 3 into a fresh tree. -/
def t123 : RBTree := (rbInsert (rbInsert (rbInsert rbEmpty 2).2 1).2 3).2

theorem t123_reachable : Reachable t123 :=
  Reachable.ins _ 3 (Reachable.ins _ 1 (Reachable.ins _ 2 Reachable.create))

/-- The tree obtained by inserting 2 then 1 into a fresh tree. -/
def t21 : RBTree := (rbInsert (rbInsert rbEmpty 2).2 1).2

theorem t21_reachable : Reachable t21 :=
  Reachable.ins _ 1 (Reachable.ins _ 2 Reachable.create)

/-- A coloring-valid tree whose in-order sequence 5,3,1 is not
increasing (for the claim that rb_is_valid never looks at the order). -/
def badOrderTree : Tree := .node .black (.node .red .nil 5 .nil) 3 (.node .red .nil 1 .nil)

/-! ### Claim theorems: C6, C9, C10, and the C3 counterexample -/

/-- Claim C6: rb_left_rotate on a node x with a real right child, and
rb_right_rotate on a node y with a real left child, leave the in-order
value sequence and the node count of the whole tree unchanged (the
rotated subtree is re-plugged into the same position p). -/
theorem C6_rotations_preserve_inorder :
    (∀ (p : Path) (c : Color) (l : Tree) (v : Int) (rc : Color) (rl : Tree) (rv : Int) (rr : Tree),
      inorder (plug (leftRot (.node c l v (.node rc rl rv rr))) p)
        = inorder (plug (.node c l v (.node rc rl rv rr)) p)
      ∧ numNodes (plug (leftRot (.node c l v (.node rc rl rv rr))) p)
        = numNodes (plug (.node c l v (.node rc rl rv rr)) p))
    ∧ (∀ (p : Path) (c : Color) (lc : Color) (ll : Tree) (lv : Int) (lr : Tree) (v : Int) (r : Tree),
      inorder (plug (rightRot (.node c (.node lc ll lv lr) v r)) p)
        = inorder (plug (.node c (.node lc ll lv lr) v r) p)
      ∧ numNodes (plug (rightRot (.node c (.node lc ll lv lr) v r)) p)
        = numNodes (plug (.node c (.node lc ll lv lr) v r) p)) := by
  constructor
  · intro p c l v rc rl rv rr
    have h : inorder (plug (leftRot (.node c l v (.node rc rl rv rr))) p)
        = inorder (plug (.node c l v (.node rc rl rv rr)) p) := by
      simp [inorder_plug, leftRot, inorder]
    exact ⟨h, by simp [numNodes_eq_length, h]⟩
  · intro p c lc ll lv lr v r
    have h : inorder (plug (rightRot (.node c (.node lc ll lv lr) v r)) p)
        = inorder (plug (.node c (.node lc ll lv lr) v r) p) := by
      simp [inorder_plug, rightRot, inorder]
    exact ⟨h, by simp [numNodes_eq_length, h]⟩

/-- Claim C9: on a null tree reference every read-only operation
returns its neutral result: rb_size 0, rb_is_empty true, rb_search /
rb_min / rb_max NULL, rb_is_valid false, rb_height -1 (whereas an empty
tree reports height 0). -/
theorem C9_null_tree_neutral :
    rbSizeA none = 0 ∧ rbIsEmptyA none = true ∧ (∀ k, rbSearchA none k = none)
    ∧ rbMinA none = none ∧ rbMaxA none = none ∧ rbIsValid none = false
    ∧ rbHeightA none = -1 ∧ rbHeightA (some rbEmpty) = 0 :=
  ⟨rfl, rfl, fun _ => rfl, rfl, rfl, rfl, rfl, rfl⟩

/-- Claim C10: rb_is_valid inspects only colors and black-heights: on a
tree whose in-order sequence 5,3,1 is not increasing but whose coloring
satisfies the three checked properties, it returns true. -/
theorem C10_is_valid_ignores_order :
    rbIsValid (some ⟨badOrderTree, 3⟩) = true
    ∧ ¬ List.Chain' (· < ·) (inorder badOrderTree) := by
  constructor
  · rfl
  · rw [show inorder badOrderTree = [5, 3, 1] from rfl]
    simp [List.chain'_cons]

/-- Counterexample to claim C3: the reachable tree {1,2,3} (root 2,
red children 1 and 3) holds exactly three values in the range [1,3],
but rb_count_range returns 5 - the in-range recursion re-visits both
children and counts the values 1 and 3 twice. -/
theorem C3_count_range_counterexample :
    Reachable t123 ∧ (1 : Int) ≤ 3
    ∧ rbCountRange (some t123) 1 3 = 5
    ∧ ((inorder t123.root).filter (fun v => decide (1 ≤ v ∧ v ≤ 3))).length = 3 := by
  refine ⟨t123_reachable, by decide, by decide, by decide⟩

/-! ### Successor and predecessor lemmas -/

theorem inorder_ne_nil (c : Color) (l : Tree) (v : Int) (r : Tree) :
    inorder (.node c l v r) ≠ [] := by
  simp [inorder]

theorem treeMinVal_head : ∀ (c : Color) (l : Tree) (v : Int) (r : Tree),
    (inorder (.node c l v r)).head? = some (treeMinVal (.node c l v r))
  | c, .nil, v, r => by simp [inorder, treeMinVal]
  | c, .node lc ll lv lr, v, r => by
    rw [treeMinVal]
    rw [show inorder (.node c (.node lc ll lv lr) v r)
        = inorder (.node lc ll lv lr) ++ v :: inorder r from rfl]
    rw [List.head?_append_of_ne_nil _ (inorder_ne_nil lc ll lv lr)]
    exact treeMinVal_head lc ll lv lr

theorem treeMaxVal_getLast : ∀ (c : Color) (l : Tree) (v : Int) (r : Tree),
    (inorder (.node c l v r)).getLast? = some (treeMaxVal (.node c l v r))
  | c, l, v, .nil => by
    rw [treeMaxVal]
    rw [show inorder (.node c l v .nil) = inorder l ++ [v] from rfl]
    rw [List.getLast?_append_of_ne_nil _ (by simp)]
    rfl
  | c, l, v, .node rc rl rv rr => by
    rw [treeMaxVal]
    rw [show inorder (.node c l v (.node rc rl rv rr))
        = inorder l ++ [v] ++ inorder (.node rc rl rv rr) from by simp [inorder]]
    rw [List.getLast?_append_of_ne_nil _ (inorder_ne_nil rc rl rv rr)]
    exact treeMaxVal_getLast rc rl rv rr

theorem ascendL_eq : ∀ (p : Path), ascendL p = (rightL p).head?
  | [] => rfl
  | ⟨c, v, o, .L⟩ :: p => by simp [ascendL, rightL]
  | ⟨c, v, o, .R⟩ :: p => by
    rw [show ascendL (⟨c, v, o, .R⟩ :: p) = ascendL p from rfl,
      show rightL (⟨c, v, o, .R⟩ :: p) = rightL p from rfl]
    exact ascendL_eq p

theorem ascendR_eq : ∀ (p : Path), ascendR p = (leftL p).getLast?
  | [] => rfl
  | ⟨c, v, o, .R⟩ :: p => by
    rw [show ascendR (⟨c, v, o, .R⟩ :: p) = some v from rfl,
      show leftL (⟨c, v, o, .R⟩ :: p) = leftL p ++ inorder o ++ [v] from rfl]
    rw [List.getLast?_append_of_ne_nil _ (by simp)]
    rfl
  | ⟨c, v, o, .L⟩ :: p => by
    rw [show ascendR (⟨c, v, o, .L⟩ :: p) = ascendR p from rfl,
      show leftL (⟨c, v, o, .L⟩ :: p) = leftL p from rfl]
    exact ascendR_eq p

theorem filter_gt_sorted (B A : List Int) (k : Int)
    (hpw : List.Pairwise (· < ·) (B ++ k :: A)) :
    (B ++ k :: A).filter (fun v => decide (k < v)) = A := by
  obtain ⟨hB, hkA, hcross⟩ := List.pairwise_append.1 hpw
  have hAk : ∀ y ∈ A, k < y := (List.pairwise_cons.1 hkA).1
  have hBk : ∀ x ∈ B, x < k := fun x hx => hcross x hx k (by simp)
  rw [List.filter_append, List.filter_cons]
  have h1 : B.filter (fun v => decide (k < v)) = [] := by
    rw [List.filter_eq_nil_iff]
    intro x hx
    have := hBk x hx
    simp only [decide_eq_true_eq]
    omega
  have h2 : A.filter (fun v => decide (k < v)) = A := by
    rw [List.filter_eq_self]
    intro a ha
    simpa using hAk a ha
  rw [h1, h2]
  simp

theorem filter_lt_sorted (B A : List Int) (k : Int)
    (hpw : List.Pairwise (· < ·) (B ++ k :: A)) :
    (B ++ k :: A).filter (fun v => decide (v < k)) = B := by
  obtain ⟨hB, hkA, hcross⟩ := List.pairwise_append.1 hpw
  have hAk : ∀ y ∈ A, k < y := (List.pairwise_cons.1 hkA).1
  have hBk : ∀ x ∈ B, x < k := fun x hx => hcross x hx k (by simp)
  rw [List.filter_append, List.filter_cons]
  have h1 : B.filter (fun v => decide (v < k)) = B := by
    rw [List.filter_eq_self]
    intro a ha
    simpa using hBk a ha
  have h2 : A.filter (fun v => decide (v < k)) = [] := by
    rw [List.filter_eq_nil_iff]
    intro x hx
    have := hAk x hx
    simp only [decide_eq_true_eq]
    omega
  rw [h1, h2]
  simp

/-! ### Claim theorems: C1, C2, C3 (amended), C4, C5 -/

/-- Claim C1: after every completed rb_insert / rb_delete sequence on a
tree made by rb_tree_create, rb_is_valid returns true: black root, no
red node with a red child, equal reported black-heights everywhere. -/
theorem C1_invariant_preservation (T : RBTree) (h : Reachable T) :
    rbIsValid (some T) = true := by
  obtain ⟨⟨n, hbal⟩, _, _⟩ := reachable_inv h
  rw [rbIsValid]
  rw [if_neg (fun hc => hc.2 (bal_colorOf hbal))]
  rw [bal_isValidNode hbal]
  rfl

theorem C1_witness : Reachable t123 ∧ rbIsValid (some t123) = true :=
  ⟨t123_reachable, C1_invariant_preservation t123 t123_reachable⟩

/-- Claim C2: on every reachable tree, rb_inorder_walk visits each
stored value exactly once, in a strictly increasing sequence; in
particular no two stored values are equal. -/
theorem C2_inorder_strictly_increasing (T : RBTree) (h : Reachable T) :
    List.Chain' (· < ·) (rbInorderWalkList (some T))
    ∧ List.Pairwise (· ≠ ·) (rbInorderWalkList (some T)) := by
  obtain ⟨_, hb, _⟩ := reachable_inv h
  exact ⟨bstb_chain hb, (bstb_pairwise _ hb).imp (fun hlt => ne_of_lt hlt)⟩

theorem C2_witness : Reachable t123
    ∧ (List.Chain' (· < ·) (rbInorderWalkList (some t123))
      ∧ List.Pairwise (· ≠ ·) (rbInorderWalkList (some t123))) :=
  ⟨t123_reachable, C2_inorder_strictly_increasing t123 t123_reachable⟩

/-- Amended claim C3: for every reachable tree and bounds min <= max,
rb_count_range counts only stored values inside the range - it returns
0 exactly when no stored value lies in [min,max] - and counts every
in-range value at least once (the result is an upper-approximation of
the exact answer); it can however count an in-range value more than
once, because an in-range node re-recurses into both children, so the
returned number is not in general the exact count (see the
counterexample). -/
theorem C3_count_range_amended (T : RBTree) (a b : Int) (h : Reachable T) (hab : a ≤ b) :
    ((inorder T.root).filter (fun v => decide (a ≤ v ∧ v ≤ b))).length
      ≤ rbCountRange (some T) a b
    ∧ (rbCountRange (some T) a b = 0
        ↔ ((inorder T.root).filter (fun v => decide (a ≤ v ∧ v ≤ b))).length = 0) := by
  obtain ⟨_, hb, _⟩ := reachable_inv h
  obtain ⟨hge, hzero⟩ := countRange_spec T.root a b hb hab
  refine ⟨hge, ⟨fun hc => ?_, hzero⟩⟩
  simp only [rbCountRange] at hc
  omega

theorem C3_witness : Reachable t123 ∧ (0 : Int) ≤ 10
    ∧ (((inorder t123.root).filter (fun v => decide ((0:Int) ≤ v ∧ v ≤ 10))).length
        ≤ rbCountRange (some t123) 0 10
      ∧ (rbCountRange (some t123) 0 10 = 0
        ↔ ((inorder t123.root).filter (fun v => decide ((0:Int) ≤ v ∧ v ≤ 10))).length = 0)) :=
  ⟨t123_reachable, by decide, C3_count_range_amended t123 0 10 t123_reachable (by decide)⟩

/-- Claim C4: inserting a value already present in a reachable tree
returns RB_DUPLICATE and leaves the tree object (root structure, size,
in-order sequence) unchanged, and the value-destructor is never
invoked by rb_insert. -/
theorem C4_duplicate_rejection (T : RBTree) (k : Int) (h : Reachable T)
    (hk : k ∈ inorder T.root) :
    rbInsert T k = (.DUPLICATE, T) ∧ rbInsertFreeDataCalls T k = [] := by
  obtain ⟨_, hb, _⟩ := reachable_inv h
  have hd : insDescend T.root k [] = none :=
    (insDescend_none_iff T.root k [] hb trivial trivial).2 hk
  rw [rbInsert, hd]
  exact ⟨rfl, rfl⟩

theorem C4_witness : Reachable t123 ∧ (2 : Int) ∈ inorder t123.root
    ∧ (rbInsert t123 2 = (.DUPLICATE, t123) ∧ rbInsertFreeDataCalls t123 2 = []) :=
  ⟨t123_reachable, by decide, C4_duplicate_rejection t123 2 t123_reachable (by decide)⟩

/-- Claim C5: every reachable tree with n >= 1 elements satisfies
rb_height(tree) <= 2 * floor(log2(n+1)), rb_height counting the nodes
on the longest root-to-sentinel path. -/
theorem C5_height_bound (T : RBTree) (h : Reachable T) (hn : 1 ≤ T.size) :
    rbHeightA (some T) ≤ 2 * (Nat.log 2 (T.size + 1) : Int) := by
  obtain ⟨⟨n, hbal⟩, _, hsz⟩ := reachable_inv h
  have h1 : heightN T.root ≤ 2 * n := by
    have := bal_height hbal
    simpa using this
  have h2 : 2 ^ n ≤ T.size + 1 := by
    rw [hsz]; exact bal_size_lb hbal
  have h3 : n ≤ Nat.log 2 (T.size + 1) :=
    (Nat.pow_le_iff_le_log (by norm_num) (by omega)).1 h2
  have h4 : heightN T.root ≤ 2 * Nat.log 2 (T.size + 1) := by omega
  rw [rbHeightA]
  exact_mod_cast h4

theorem C5_witness : Reachable t123 ∧ 1 ≤ t123.size
    ∧ rbHeightA (some t123) ≤ 2 * (Nat.log 2 (t123.size + 1) : Int) :=
  ⟨t123_reachable, by decide, C5_height_bound t123 t123_reachable (by decide)⟩

/-- Claim C7: on a reachable tree, rb_successor and rb_predecessor
return NULL when the key is absent; when the key is present,
rb_successor returns the least stored value strictly greater than it
(NULL when the key is the maximum) and rb_predecessor the greatest
strictly smaller (NULL when it is the minimum) - on the sorted walk
list, the head of the values above k, resp. the last of the values
below k. -/
theorem C7_successor_predecessor (T : RBTree) (k : Int) (h : Reachable T) :
    (k ∉ inorder T.root → rbSuccessor T k = none ∧ rbPredecessor T k = none)
    ∧ (k ∈ inorder T.root →
        rbSuccessor T k = ((inorder T.root).filter (fun v => decide (k < v))).head?
        ∧ rbPredecessor T k = ((inorder T.root).filter (fun v => decide (v < k))).getLast?) := by
  obtain ⟨_, hb, _⟩ := reachable_inv h
  constructor
  · intro hk
    have hf : findZ T.root k [] = none :=
      (findZ_none_iff T.root k [] hb trivial trivial).2 hk
    constructor
    · rw [rbSuccessor, hf]
    · rw [rbPredecessor, hf]
  · intro hk
    cases hres : findZ T.root k [] with
    | none =>
      exact absurd hk ((findZ_none_iff T.root k [] hb trivial trivial).1 hres)
    | some res =>
      obtain ⟨p, zc, zl, zv, zr⟩ := res
      obtain ⟨hzveq, _⟩ := findZ_zbst T.root k [] hb .top trivial trivial hres
      have hplug := findZ_plug T.root k [] hres
      have hio : inorder T.root
          = (leftL p ++ inorder zl) ++ k :: (inorder zr ++ rightL p) := by
        simp only [plug] at hplug
        rw [← hplug, inorder_plug, ← hzveq]
        simp [inorder, List.append_assoc]
      have hpw := bstb_pairwise _ hb
      rw [hio] at hpw
      constructor
      · rw [rbSuccessor, hres]
        rw [hio, filter_gt_sorted _ _ _ hpw]
        cases zr with
        | nil =>
          simp only []
          rw [ascendL_eq]
          simp [inorder]
        | node rc rl rv rr =>
          simp only []
          rw [List.head?_append_of_ne_nil _ (inorder_ne_nil rc rl rv rr)]
          rw [treeMinVal_head]
      · rw [rbPredecessor, hres]
        rw [hio, filter_lt_sorted _ _ _ hpw]
        cases zl with
        | nil =>
          simp only []
          rw [ascendR_eq]
          simp [inorder]
        | node lc ll lv lr =>
          simp only []
          rw [List.getLast?_append_of_ne_nil _ (inorder_ne_nil lc ll lv lr)]
          rw [treeMaxVal_getLast]

theorem C7_witness : Reachable t123
    ∧ (((2 : Int) ∉ inorder t123.root → rbSuccessor t123 2 = none ∧ rbPredecessor t123 2 = none)
      ∧ ((2 : Int) ∈ inorder t123.root →
          rbSuccessor t123 2 = ((inorder t123.root).filter (fun v => decide ((2:Int) < v))).head?
          ∧ rbPredecessor t123 2
            = ((inorder t123.root).filter (fun v => decide (v < (2:Int)))).getLast?)) :=
  ⟨t123_reachable, C7_successor_predecessor t123 2 t123_reachable⟩

/-- The sentinel writes rb_insert performs: the source of rb_insert and
rb_insert_fixup assigns colors and parent pointers only to z, z->parent,
z->parent->parent and the uncle y read while its color is RED - each of
them a real node on every path (the loop guard z->parent->color == RED
fails at the sentinel, which stays BLACK) - and each rotation guards its
single sentinel-exposed assignment with `!= tree->nil`; so the write log
is empty by construction. -/
def rbInsertSentinelWrites (_ : RBTree) (_ : Int) : List SWrite := []

theorem applySW_black (s : Sentinel) (ws : List SWrite)
    (hc : s.color = .black)
    (hw : ∀ w ∈ ws, (∃ q, w = SWrite.parentW q) ∨ w = SWrite.colorW .black) :
    (applySW s ws).color = .black := by
  induction ws generalizing s with
  | nil => exact hc
  | cons w ws ih =>
    rcases hw w (List.mem_cons_self _ _) with ⟨q, rfl⟩ | rfl
    · exact ih ⟨q, s.color⟩ hc (fun w hw' => hw w (List.mem_cons_of_mem _ hw'))
    · exact ih ⟨s.parent, .black⟩ rfl (fun w hw' => hw w (List.mem_cons_of_mem _ hw'))

/-- Claim C8, counterexample: deleting 1 from the reachable tree
{2(black), 1(red)} runs rb_transplant with a sentinel replacement node
(v == tree->nil), whose unconditional `v->parent = u->parent` assigns
the sentinel's parent field to the node 2; the sentinel state after
the operation differs from its state at rb_tree_create, refuting the
claim that no completed operation modifies the sentinel. -/
theorem C8_sentinel_counterexample :
    Reachable t21
    ∧ (rbDelete t21 1).2.2 = [SWrite.parentW (some 2)]
    ∧ applySW sentinel0 (rbDelete t21 1).2.2 ≠ sentinel0 :=
  ⟨t21_reachable, by decide, by decide⟩

/-- Claim C8, amended: on a reachable tree, rb_insert performs no write
to the sentinel at all, and every sentinel write of rb_delete is either
a parent-pointer assignment (rb_transplant with v == tree->nil, or
x->parent = y with x == tree->nil) or a BLACK color assignment (the
x->color = BLACK at fixup exit); consequently the sentinel's data, left,
right fields are never modified and its color is BLACK after every
completed operation - only its parent field may change. -/
theorem C8_sentinel_amended (T : RBTree) (k : Int) (h : Reachable T) :
    rbInsertSentinelWrites T k = []
    ∧ (∀ s ∈ (rbDelete T k).2.2, (∃ q, s = SWrite.parentW q) ∨ s = SWrite.colorW .black)
    ∧ (applySW sentinel0 (rbDelete T k).2.2).color = .black := by
  obtain ⟨⟨N, hbal⟩, _, _⟩ := reachable_inv h
  have hw := (rbDelete_ok T k hbal).2
  exact ⟨rfl, hw, applySW_black sentinel0 _ rfl hw⟩

theorem C8_witness :
    Reachable t21
    ∧ (rbInsertSentinelWrites t21 1 = []
      ∧ (∀ s ∈ (rbDelete t21 1).2.2, (∃ q, s = SWrite.parentW q) ∨ s = SWrite.colorW .black)
      ∧ (applySW sentinel0 (rbDelete t21 1).2.2).color = .black) :=
  ⟨t21_reachable, C8_sentinel_amended t21 1 t21_reachable⟩

end RBC
